import Mathlib

/-!
Verification of the XRT compilation cache (`tensorflow/compiler/xrt/
xrt_compilation_cache.h`).  The repository ships only the header of
`XRTCompilationCache`; the member-function bodies live in
`xrt_compilation_cache.cc`, which is not part of the source set.  The
operations below are therefore modelled from the specification (sections
3–8) together with the contracts stated in the header comments, as a
sequential (lock-atomic) state machine.  Machine integers (`int64`) are
modelled as `Int`/`Nat`; the opaque `xla::LocalExecutable` payload is
modelled as an opaque `Nat` token.
-/

namespace XRTCache

/-- Result codes (`tensorflow::Status`), restricted to the kinds the spec
names: `ok`, `invalidArgument`, `notFound` and `internal` (compile failure,
carrying a message propagated verbatim). -/
inductive St where
  | ok : St
  | invalidArgument : St
  | notFound : St
  | internal : String → St
deriving DecidableEq, Repr

/-- Whether a status is the success status. -/
def St.isOk : St → Bool
  | .ok => true
  | _ => false

/-- One cache entry (`CompiledSubgraph` in the header, lines 136–153):
key, uid, initialization flag and status, LRU counter `lastUse` (initially
`-1`), the opaque compiled payload, and the intrusive reference count from
`core::RefCounted` (which starts at one for the creator). -/
structure Entry where
  key : String
  uid : Nat
  initialized : Bool
  initStatus : St
  lastUse : Int
  program : Option Nat
  refcount : Nat
deriving DecidableEq, Repr

/-- The cache state (`XRTCompilationCache`, header lines 87–236):
`maxEntries` is `max_cache_entries_`; `useCounter` is `use_counter_`;
`uidCounter` models the monotonically increasing source of fresh uids;
`store` is `entries_by_uid_` (uid → entry); `keyMap` is `cache_`
(key → uid); `byLastUse` is `entries_by_last_use_` (last_use → uid), the
recency index.  Per the spec's data model an entry is marked for eviction
iff it is present in the identity maps but absent from `byLastUse`; the
active-entry count is the size of `byLastUse`. -/
structure Cache where
  maxEntries : Int
  useCounter : Int
  uidCounter : Nat
  store : List (Nat × Entry)
  keyMap : List (String × Nat)
  byLastUse : List (Int × Nat)
deriving DecidableEq, Repr

/-! ### Association-list helpers -/

/-- First value bound to key `k`, if any. -/
def findA {α β : Type} [DecidableEq α] : List (α × β) → α → Option β
  | [], _ => none
  | p :: ps, k => if p.1 = k then some p.2 else findA ps k

/-- Remove the first pair whose key is `k`. -/
def eraseKey {α β : Type} [DecidableEq α] : List (α × β) → α → List (α × β)
  | [], _ => []
  | p :: ps, k => if p.1 = k then ps else p :: eraseKey ps k

/-- Rebind every pair whose key is `k` to the value `v`. -/
def updateA {α β : Type} [DecidableEq α] (l : List (α × β)) (k : α) (v : β) :
    List (α × β) :=
  l.map (fun p => if p.1 = k then (k, v) else p)

/-- Remove every pair whose value is `v`. -/
def eraseVal {α β : Type} [DecidableEq β] (l : List (α × β)) (v : β) :
    List (α × β) :=
  l.filter (fun p => p.2 ≠ v)

/-- Whether some pair has value `v`. -/
def containsVal {α β : Type} [DecidableEq β] (l : List (α × β)) (v : β) : Bool :=
  l.any (fun p => p.2 = v)

/-- A pair with minimal key (`entries_by_last_use_.begin()` on the ordered
map). -/
def minKey {α β : Type} [LinearOrder α] : List (α × β) → Option (α × β)
  | [] => none
  | p :: ps =>
    match minKey ps with
    | none => some p
    | some q => some (if p.1 ≤ q.1 then p else q)

section AssocLemmas

variable {α β : Type}

theorem findA_eq_none [DecidableEq α] {l : List (α × β)} {k : α} :
    findA l k = none ↔ ∀ p ∈ l, p.1 ≠ k := by
  induction l with
  | nil => simp [findA]
  | cons p ps ih =>
    by_cases h : p.1 = k <;> simp [findA, h, ih]

theorem findA_mem [DecidableEq α] {l : List (α × β)} {k : α} {v : β}
    (h : findA l k = some v) : (k, v) ∈ l := by
  induction l with
  | nil => simp [findA] at h
  | cons p ps ih =>
    by_cases hp : p.1 = k
    · simp [findA, hp] at h
      subst hp h
      simp
    · simp [findA, hp] at h
      exact List.mem_cons_of_mem _ (ih h)

theorem findA_cons_self [DecidableEq α] {ps : List (α × β)} {k : α} {v : β} :
    findA ((k, v) :: ps) k = some v := by
  simp [findA]

theorem findA_cons_ne [DecidableEq α] {ps : List (α × β)} {p : α × β} {k : α}
    (h : p.1 ≠ k) : findA (p :: ps) k = findA ps k := by
  simp [findA, h]

theorem findA_updateA_self [DecidableEq α] {l : List (α × β)} {k : α} {v : β}
    (h : findA l k ≠ none) : findA (updateA l k v) k = some v := by
  induction l with
  | nil => simp [findA] at h
  | cons p ps ih =>
    by_cases hp : p.1 = k
    · simp [updateA, findA, hp]
    · simp [findA, hp] at h
      simpa [updateA, findA, hp] using ih h

theorem findA_updateA_ne [DecidableEq α] {l : List (α × β)} {k k' : α} {v : β}
    (h : k' ≠ k) : findA (updateA l k v) k' = findA l k' := by
  induction l with
  | nil => rfl
  | cons p ps ih =>
    show findA ((if p.1 = k then (k, v) else p) :: updateA ps k v) k' = _
    by_cases hp : p.1 = k
    · rw [if_pos hp]
      rw [findA_cons_ne (show (k, v).1 ≠ k' from fun hh => h hh.symm)]
      rw [findA_cons_ne (show p.1 ≠ k' from hp ▸ fun hh => h hh.symm)]
      exact ih
    · rw [if_neg hp]
      by_cases hp' : p.1 = k'
      · simp [findA, hp']
      · rw [findA_cons_ne hp', findA_cons_ne hp']
        exact ih

theorem findA_eraseKey_ne [DecidableEq α] {l : List (α × β)} {k k' : α}
    (h : k' ≠ k) : findA (eraseKey l k) k' = findA l k' := by
  induction l with
  | nil => rfl
  | cons p ps ih =>
    by_cases hp : p.1 = k
    · rw [show eraseKey (p :: ps) k = ps from by simp [eraseKey, hp]]
      rw [findA_cons_ne (show p.1 ≠ k' from hp ▸ fun hh => h hh.symm)]
    · rw [show eraseKey (p :: ps) k = p :: eraseKey ps k from by
        simp [eraseKey, hp]]
      by_cases hp' : p.1 = k'
      · simp [findA, hp']
      · rw [findA_cons_ne hp', findA_cons_ne hp']
        exact ih

theorem mem_eraseKey [DecidableEq α] {l : List (α × β)} {k : α} {p : α × β}
    (h : p ∈ eraseKey l k) : p ∈ l := by
  induction l with
  | nil => simp [eraseKey] at h
  | cons q qs ih =>
    by_cases hq : q.1 = k
    · simp [eraseKey, hq] at h
      exact List.mem_cons_of_mem _ h
    · simp [eraseKey, hq] at h
      rcases h with h | h
      · exact h ▸ List.mem_cons_self _ _
      · exact List.mem_cons_of_mem _ (ih h)

theorem mem_eraseKey_of_ne [DecidableEq α] {l : List (α × β)} {k : α}
    {p : α × β} (hp : p ∈ l) (h : p.1 ≠ k) : p ∈ eraseKey l k := by
  induction l with
  | nil => simp at hp
  | cons q qs ih =>
    by_cases hq : q.1 = k
    · rcases List.mem_cons.mp hp with rfl | hmem
      · exact absurd hq h
      · simp [eraseKey, hq, hmem]
    · rcases List.mem_cons.mp hp with rfl | hmem
      · simp [eraseKey, hq]
      · simp [eraseKey, hq]
        exact Or.inr (ih hmem)

theorem length_eraseKey_of_mem [DecidableEq α] {l : List (α × β)} {k : α}
    (h : findA l k ≠ none) :
    (eraseKey l k).length + 1 = l.length := by
  induction l with
  | nil => simp [findA] at h
  | cons p ps ih =>
    by_cases hp : p.1 = k
    · simp [eraseKey, hp]
    · simp [findA, hp] at h
      simp [eraseKey, hp, ih h]

theorem length_eraseKey_le [DecidableEq α] {l : List (α × β)} {k : α} :
    (eraseKey l k).length ≤ l.length := by
  induction l with
  | nil => simp [eraseKey]
  | cons p ps ih =>
    by_cases hp : p.1 = k
    · simp [eraseKey, hp]
    · simp [eraseKey, hp]
      omega

theorem minKey_eq_none_iff [LinearOrder α] {l : List (α × β)} :
    minKey l = none ↔ l = [] := by
  cases l with
  | nil => simp [minKey]
  | cons p ps =>
    simp only [minKey]
    cases hm : minKey ps <;> simp

theorem minKey_mem [LinearOrder α] {l : List (α × β)} {p : α × β}
    (h : minKey l = some p) : p ∈ l := by
  induction l generalizing p with
  | nil => simp [minKey] at h
  | cons q qs ih =>
    simp only [minKey] at h
    cases hm : minKey qs with
    | none =>
      rw [hm] at h
      simp at h
      simp [h]
    | some r =>
      rw [hm] at h
      simp at h
      by_cases hle : q.1 ≤ r.1
      · rw [if_pos hle] at h
        simp [← h]
      · rw [if_neg hle] at h
        exact List.mem_cons_of_mem _ (h ▸ ih hm)

theorem minKey_le [LinearOrder α] {l : List (α × β)} {p : α × β}
    (h : minKey l = some p) : ∀ q ∈ l, p.1 ≤ q.1 := by
  induction l generalizing p with
  | nil => simp
  | cons q qs ih =>
    intro r hr
    simp only [minKey] at h
    cases hm : minKey qs with
    | none =>
      rw [hm] at h
      simp at h
      have hqs : qs = [] := minKey_eq_none_iff.mp hm
      subst hqs
      rcases List.mem_cons.mp hr with rfl | hmem
      · rw [← h]
      · simp at hmem
    | some s =>
      rw [hm] at h
      simp at h
      rcases List.mem_cons.mp hr with rfl | hmem
      · by_cases hle : r.1 ≤ s.1
        · rw [if_pos hle] at h
          rw [← h]
        · rw [if_neg hle] at h
          rw [← h]
          exact le_of_not_le hle
      · by_cases hle : q.1 ≤ s.1
        · rw [if_pos hle] at h
          rw [← h]
          exact le_trans hle (ih hm r hmem)
        · rw [if_neg hle] at h
          exact h ▸ ih hm r hmem

theorem findA_ne_none_of_mem [DecidableEq α] {l : List (α × β)} {p : α × β}
    (h : p ∈ l) : findA l p.1 ≠ none := by
  intro hn
  rw [findA_eq_none] at hn
  exact hn p h rfl

theorem mem_updateA [DecidableEq α] {l : List (α × β)} {k : α} {v : β}
    {p : α × β} (h : p ∈ updateA l k v) :
    p = (k, v) ∨ (p ∈ l ∧ p.1 ≠ k) := by
  unfold updateA at h
  rcases List.mem_map.mp h with ⟨q, hq, hqe⟩
  by_cases hk : q.1 = k
  · rw [if_pos hk] at hqe
    exact Or.inl hqe.symm
  · rw [if_neg hk] at hqe
    exact Or.inr ⟨hqe ▸ hq, hqe ▸ hk⟩

theorem fst_ne_of_mem_eraseKey_nodup [DecidableEq α] {l : List (α × β)}
    {k : α} {p : α × β} (hnd : (l.map Prod.fst).Nodup)
    (h : p ∈ eraseKey l k) : p.1 ≠ k := by
  induction l with
  | nil => simp [eraseKey] at h
  | cons q qs ih =>
    rw [List.map_cons, List.nodup_cons] at hnd
    by_cases hq : q.1 = k
    · rw [show eraseKey (q :: qs) k = qs from by simp [eraseKey, hq]] at h
      intro hpk
      exact hnd.1 (by
        rw [hq, ← hpk]
        exact List.mem_map_of_mem Prod.fst h)
    · rw [show eraseKey (q :: qs) k = q :: eraseKey qs k from by
        simp [eraseKey, hq]] at h
      rcases List.mem_cons.mp h with rfl | hmem
      · exact hq
      · exact ih hnd.2 hmem

theorem map_snd_eraseKey_sublist [DecidableEq α] {l : List (α × β)} {k : α} :
    ((eraseKey l k).map Prod.snd).Sublist (l.map Prod.snd) := by
  induction l with
  | nil => simp [eraseKey]
  | cons p ps ih =>
    by_cases hp : p.1 = k
    · rw [show eraseKey (p :: ps) k = ps from by simp [eraseKey, hp]]
      simp
    · rw [show eraseKey (p :: ps) k = p :: eraseKey ps k from by
        simp [eraseKey, hp]]
      simpa using ih

theorem map_fst_updateA [DecidableEq α] {l : List (α × β)} {k : α} {v : β} :
    (updateA l k v).map Prod.fst = l.map Prod.fst := by
  unfold updateA
  rw [List.map_map]
  apply List.map_congr_left
  intro p _
  by_cases hk : p.1 = k <;> simp [hk]

theorem map_fst_eraseKey_sublist [DecidableEq α] {l : List (α × β)} {k : α} :
    ((eraseKey l k).map Prod.fst).Sublist (l.map Prod.fst) := by
  induction l with
  | nil => simp [eraseKey]
  | cons p ps ih =>
    by_cases hp : p.1 = k
    · rw [show eraseKey (p :: ps) k = ps from by simp [eraseKey, hp]]
      simp
    · rw [show eraseKey (p :: ps) k = p :: eraseKey ps k from by
        simp [eraseKey, hp]]
      simpa using ih

theorem mem_eraseVal [DecidableEq β] {l : List (α × β)} {v : β} {p : α × β}
    (h : p ∈ eraseVal l v) : p ∈ l :=
  List.mem_of_mem_filter h

theorem snd_ne_of_mem_eraseVal [DecidableEq β] {l : List (α × β)} {v : β}
    {p : α × β} (h : p ∈ eraseVal l v) : p.2 ≠ v := by
  have := List.of_mem_filter h
  simpa using this

theorem eraseVal_of_not_contains [DecidableEq β] {l : List (α × β)} {v : β}
    (h : containsVal l v = false) : eraseVal l v = l := by
  unfold eraseVal
  apply List.filter_eq_self.mpr
  intro p hp
  unfold containsVal at h
  have := List.any_eq_false.mp h p hp
  simpa using this

theorem map_snd_eraseVal_sublist [DecidableEq β] {l : List (α × β)} {v : β} :
    ((eraseVal l v).map Prod.snd).Sublist (l.map Prod.snd) :=
  (List.filter_sublist _).map Prod.snd

theorem map_fst_eraseVal_sublist [DecidableEq β] {l : List (α × β)} {v : β} :
    ((eraseVal l v).map Prod.fst).Sublist (l.map Prod.fst) :=
  (List.filter_sublist _).map Prod.fst

theorem containsVal_eq_false_iff [DecidableEq β] {l : List (α × β)} {v : β} :
    containsVal l v = false ↔ ∀ p ∈ l, p.2 ≠ v := by
  simp [containsVal, List.any_eq_false]

theorem containsVal_eq_true_iff [DecidableEq β] {l : List (α × β)} {v : β} :
    containsVal l v = true ↔ ∃ p ∈ l, p.2 = v := by
  simp [containsVal, List.any_eq_true]

theorem length_eraseVal_of_contains [DecidableEq β] {l : List (α × β)}
    {v : β} (hnd : (l.map Prod.snd).Nodup) (h : containsVal l v = true) :
    (eraseVal l v).length + 1 = l.length := by
  induction l with
  | nil => simp [containsVal] at h
  | cons p ps ih =>
    rw [List.map_cons, List.nodup_cons] at hnd
    by_cases hp : p.2 = v
    · have hps : containsVal ps v = false := by
        rw [containsVal_eq_false_iff]
        intro q hq hqv
        exact hnd.1 (by rw [hp, ← hqv]; exact List.mem_map_of_mem Prod.snd hq)
      rw [show eraseVal (p :: ps) v = eraseVal ps v from by
        simp [eraseVal, hp]]
      rw [eraseVal_of_not_contains hps]
      simp
    · have hps : containsVal ps v = true := by
        rw [containsVal_eq_true_iff] at h ⊢
        rcases h with ⟨q, hq, hqv⟩
        rcases List.mem_cons.mp hq with rfl | hmem
        · exact absurd hqv hp
        · exact ⟨q, hmem, hqv⟩
      rw [show eraseVal (p :: ps) v = p :: eraseVal ps v from by
        simp [eraseVal, hp]]
      have := ih hnd.2 hps
      simp only [List.length_cons]
      omega

theorem findA_eraseKey_self_nodup [DecidableEq α] {l : List (α × β)} {k : α}
    (hnd : (l.map Prod.fst).Nodup) : findA (eraseKey l k) k = none := by
  induction l with
  | nil => rfl
  | cons q qs ih =>
    rw [List.map_cons, List.nodup_cons] at hnd
    by_cases hq : q.1 = k
    · rw [show eraseKey (q :: qs) k = qs from by simp [eraseKey, hq]]
      rw [findA_eq_none]
      intro p hp hpk
      exact hnd.1 (by rw [hq, ← hpk]; exact List.mem_map_of_mem Prod.fst hp)
    · rw [show eraseKey (q :: qs) k = q :: eraseKey qs k from by
        simp [eraseKey, hq]]
      rw [findA_cons_ne hq]
      exact ih hnd.2

theorem containsVal_eraseVal_ne [DecidableEq β] {l : List (α × β)} {v w : β}
    (h : w ≠ v) : containsVal (eraseVal l v) w = containsVal l w := by
  induction l with
  | nil => rfl
  | cons q qs ih =>
    by_cases hq : q.2 = v
    · rw [show eraseVal (q :: qs) v = eraseVal qs v from by
        simp [eraseVal, hq]]
      rw [ih]
      have hqw : q.2 ≠ w := by rw [hq]; exact fun hh => h hh.symm
      unfold containsVal
      simp [hqw]
    · rw [show eraseVal (q :: qs) v = q :: eraseVal qs v from by
        simp [eraseVal, hq]]
      unfold containsVal at ih ⊢
      simp only [List.any_cons, ih]

theorem containsVal_eraseKey_of_ne_val [DecidableEq α] [DecidableEq β]
    {l : List (α × β)} {p : α × β} {w : β} (hnd : (l.map Prod.fst).Nodup)
    (hp : p ∈ l) (hw : w ≠ p.2) :
    containsVal (eraseKey l p.1) w = containsVal l w := by
  induction l with
  | nil => simp at hp
  | cons q qs ih =>
    rw [List.map_cons, List.nodup_cons] at hnd
    by_cases hq : q.1 = p.1
    · rw [show eraseKey (q :: qs) p.1 = qs from by simp [eraseKey, hq]]
      have hqp : q = p := by
        rcases List.mem_cons.mp hp with rfl | hmem
        · rfl
        · exact absurd (by rw [hq]; exact List.mem_map_of_mem Prod.fst hmem)
            hnd.1
      have hqw : q.2 ≠ w := by rw [hqp]; exact fun hh => hw hh.symm
      unfold containsVal
      simp only [List.any_cons]
      have : (decide (q.2 = w)) = false := by
        simp [hqw]
      rw [this]
      simp
    · rw [show eraseKey (q :: qs) p.1 = q :: eraseKey qs p.1 from by
        simp [eraseKey, hq]]
      have hpm : p ∈ qs := by
        rcases List.mem_cons.mp hp with rfl | hmem
        · exact absurd rfl hq
        · exact hmem
      unfold containsVal at ih ⊢
      simp only [List.any_cons, ih hnd.2 hpm]

theorem containsVal_eraseKey_self_val [DecidableEq α] [DecidableEq β]
    {l : List (α × β)} {p : α × β} (hknd : (l.map Prod.fst).Nodup)
    (hvnd : (l.map Prod.snd).Nodup) (hp : p ∈ l) :
    containsVal (eraseKey l p.1) p.2 = false := by
  rw [containsVal_eq_false_iff]
  intro q hq hq2
  have hq1 : q.1 ≠ p.1 := fst_ne_of_mem_eraseKey_nodup hknd hq
  have hqm : q ∈ l := mem_eraseKey hq
  have : q = p := List.inj_on_of_nodup_map hvnd hqm hp hq2
  exact hq1 (by rw [this])

theorem containsVal_cons_eraseVal_ne [DecidableEq β] {l : List (α × β)}
    {x : α} {v w : β} (h : w ≠ v) :
    containsVal ((x, v) :: eraseVal l v) w = containsVal l w := by
  have h1 : containsVal ((x, v) :: eraseVal l v) w =
      containsVal (eraseVal l v) w := by
    unfold containsVal
    simp only [List.any_cons]
    have hd : (decide ((x, v).2 = w)) = false := by
      simp
      exact fun hh => h hh.symm
    rw [hd]
    simp
  rw [h1, containsVal_eraseVal_ne h]

theorem findA_updateA_ne_none [DecidableEq α] {l : List (α × β)} {k w : α}
    {v : β} (h : findA l w ≠ none) : findA (updateA l k v) w ≠ none := by
  by_cases hw : w = k
  · subst hw
    rw [findA_updateA_self h]
    exact fun hh => by cases hh
  · rw [findA_updateA_ne hw]
    exact h

end AssocLemmas

/-! ### Cache operations

The bodies of the `XRTCompilationCache` member functions are not in the
source set (only the header is), so each operation below is modelled from
the specification and the contracts in the header comments. -/

/-- Modelled from the spec: the raw constructor body of
`XRTCompilationCache(int max_number_of_entries)` (missing
`xrt_compilation_cache.cc`); all counters start at zero and all three maps
start empty. -/
def initCache (cap : Int) : Cache :=
  { maxEntries := cap, useCounter := 0, uidCounter := 0,
    store := [], keyMap := [], byLastUse := [] }

/-- Modelled from the spec: validated construction (spec sections 6 and 7,
missing from `xrt_compilation_cache.cc`): a non-positive capacity is
rejected with `InvalidArgument`; a positive capacity yields the empty
cache. -/
def mkCache (cap : Int) : Except St Cache :=
  if cap ≤ 0 then .error St.invalidArgument else .ok (initCache cap)

/-- Modelled from the spec: `DiscardEntryRefLocked` (missing
`xrt_compilation_cache.cc`, declared at header lines 172–177): when the
reference being dropped is the last one, the entry is removed from both
identity maps and destroyed; otherwise the refcount is decremented. -/
def discardEntryRefLocked (c : Cache) (uid : Nat) : Cache :=
  match findA c.store uid with
  | none => c
  | some e =>
    if e.refcount = 1 then
      { c with store := eraseKey c.store uid,
               keyMap := eraseKey c.keyMap e.key }
    else
      let e' : Entry := { e with refcount := e.refcount - 1 }
      { c with store := updateA c.store uid e' }

/-- Modelled from the spec: `MarkOldestEntryForEviction` (missing
`xrt_compilation_cache.cc`, declared at header lines 179–181): the active
entry with the smallest `last_use` is removed from the recency index and
the cache's reference to it is discarded. -/
def markOldestEntryForEviction (c : Cache) : Cache :=
  match minKey c.byLastUse with
  | none => c
  | some p =>
    discardEntryRefLocked { c with byLastUse := eraseKey c.byLastUse p.1 } p.2

/-- Modelled from the spec: the capacity-enforcement loop of
`LookupEntryMarkedForEviction` (spec section 4.2): while the number of
active entries exceeds the capacity and more than one entry is active,
mark the LRU entry.  Structured with explicit fuel so that it is a
structural recursion; `evictLoop` supplies sufficient fuel. -/
def evictLoopF : Nat → Cache → Cache
  | 0, c => c
  | n + 1, c =>
    if c.maxEntries < (c.byLastUse.length : Int) ∧ 1 < c.byLastUse.length then
      evictLoopF n (markOldestEntryForEviction c)
    else c

/-- The capacity-enforcement loop with enough fuel to run to completion. -/
def evictLoop (c : Cache) : Cache :=
  evictLoopF c.byLastUse.length c

/-- Modelled from the spec: taking one extra reference to a stored entry
(`entry->Ref()` on `core::RefCounted`). -/
def bumpRef (c : Cache) (uid : Nat) : Cache :=
  match findA c.store uid with
  | none => c
  | some e =>
    let e' : Entry := { e with refcount := e.refcount + 1 }
    { c with store := updateA c.store uid e' }

/-- Modelled from the spec: `LookupEntryMarkedForEviction` (missing
`xrt_compilation_cache.cc`, declared at header lines 183–199): the cache
gains a reference to the entry being unmarked, and then entries are marked
for eviction in LRU order while the active count exceeds the capacity,
never marking the most recently used entry.  The recency-index insertion
itself is performed by the caller (`touchEntry`). -/
def lookupEntryMarkedForEviction (c : Cache) (uid : Nat) : Cache :=
  evictLoop (bumpRef c uid)

/-- Modelled from the spec: the recency bump shared by `CompileIfKeyAbsent`
and `Lookup` (spec sections 4.1 and 4.3, missing
`xrt_compilation_cache.cc`): the entry's old recency-index slot is
dropped, it receives a fresh `last_use` from the monotonic counter and the
corresponding index slot, and if it had been marked for eviction (or is
newly created) it is re-admitted via `lookupEntryMarkedForEviction`. -/
def touchEntry (c : Cache) (uid : Nat) : Cache :=
  match findA c.store uid with
  | none => c
  | some e =>
    let wasActive := containsVal c.byLastUse uid
    let c1 : Cache :=
      { c with
        store := updateA c.store uid ({ e with lastUse := c.useCounter }),
        byLastUse := (c.useCounter, uid) :: eraseVal c.byLastUse uid,
        useCounter := c.useCounter + 1 }
    if wasActive then c1 else lookupEntryMarkedForEviction c1 uid

/-- Modelled from the spec: the entry-creation half of `InitializeEntry`
(missing `xrt_compilation_cache.cc`, declared at header lines 201–210):
a fresh entry with a fresh uid, uninitialized, `last_use = -1`, holding
the single reference owned by the creating caller, inserted into both
identity maps but not into the recency index (the 'marked for eviction'
state). -/
def blankEntry (c : Cache) (key : String) : Entry :=
  { key := key, uid := c.uidCounter, initialized := false,
    initStatus := St.ok, lastUse := -1, program := none, refcount := 1 }

def createEntry (c : Cache) (key : String) : Cache × Nat :=
  ({ c with uidCounter := c.uidCounter + 1,
            store := (c.uidCounter, blankEntry c key) :: c.store,
            keyMap := (key, c.uidCounter) :: c.keyMap }, c.uidCounter)

/-- Modelled from the spec: finalization of an entry after the compile
callback returns (spec section 4.1): `initialized` becomes true, the
callback's status is recorded, and the payload is kept only on success
(header lines 108–111: the executable is discarded on non-OK status). -/
def finalizeEntry (c : Cache) (uid : Nat) (st : St) (prog : Option Nat) :
    Cache :=
  match findA c.store uid with
  | none => c
  | some e =>
    let e' : Entry := { e with initialized := true, initStatus := st,
                               program := if st.isOk then prog else none }
    { c with store := updateA c.store uid e' }

/-- Modelled from the spec: `InitializeEntry` (missing
`xrt_compilation_cache.cc`, declared at header lines 201–210): creates the
entry, runs the compile callback (modelled by its result value `f`) with
the lock released, and finalizes the entry, leaving it in the
marked-for-eviction state. -/
def initializeEntry (c : Cache) (key : String) (f : St × Option Nat) :
    Cache × Nat :=
  let p := createEntry c key
  (finalizeEntry p.1 p.2 f.1 f.2, p.2)

/-- Modelled from the spec: `CompileIfKeyAbsent` (missing
`xrt_compilation_cache.cc`, declared at header lines 96–115), as the
sequential atomic step of the protocol of spec section 4.1.  The compile
callback is modelled by its result `f : St × Option Nat`.  Returns the new
state, the entry's uid, the status returned to the caller, and whether the
callback was invoked by this call.  On a hit the caller gains one
reference and the entry's recency is bumped as if via `Lookup`; on a miss
the entry is created, finalized with `f`, and admitted to the recency
index, possibly marking LRU entries for eviction. -/
def compileIfAbsent (c : Cache) (key : String) (f : St × Option Nat) :
    Cache × Nat × St × Bool :=
  match findA c.keyMap key with
  | some uid =>
    let st := ((findA c.store uid).map Entry.initStatus).getD St.notFound
    (touchEntry (bumpRef c uid) uid, uid, st, false)
  | none =>
    let p := initializeEntry c key f
    (touchEntry p.1 p.2, p.2, f.1, true)

/-- Modelled from the spec: `Lookup` (missing `xrt_compilation_cache.cc`,
declared at header lines 119–122): an unrecognized uid yields `NotFound`
and no state change; otherwise the returned `EntryRef` holds one new
reference and the entry's recency is bumped, unmarking it if it had been
marked for eviction. -/
def lookupOp (c : Cache) (uid : Nat) : Cache × St :=
  match findA c.store uid with
  | none => (c, St.notFound)
  | some _ => (touchEntry (bumpRef c uid) uid, St.ok)

/-- Modelled from the spec: `Release` (missing `xrt_compilation_cache.cc`,
declared at header line 117): an unrecognized uid yields `NotFound` and no
state change; otherwise one reference is discarded, destroying the entry
if it was the last one. -/
def releaseOp (c : Cache) (uid : Nat) : Cache × St :=
  match findA c.store uid with
  | none => (c, St.notFound)
  | some _ => (discardEntryRefLocked c uid, St.ok)

/-- Modelled from the spec: `GetOrCreateCompilationCache` (missing
`xrt_compilation_cache.cc`, declared at header lines 238–244): when
`max_number_of_entries` is zero the size is resolved from the
`TF_XRT_COMPILATION_CACHE_SIZE` environment variable (modelled by the
parameter `envSize`) before construction. -/
def getOrCreateCompilationCache (envSize : Int) (n : Int) :
    Except St Cache :=
  mkCache (if n = 0 then envSize else n)

/-- States reachable from a freshly constructed cache by any sequence of
`CompileIfKeyAbsent`, `Lookup` and `Release` calls. -/
inductive Reachable : Cache → Prop where
  | init (cap : Int) : Reachable (initCache cap)
  | compile {c : Cache} (k : String) (f : St × Option Nat) :
      Reachable c → Reachable (compileIfAbsent c k f).1
  | look {c : Cache} (uid : Nat) :
      Reachable c → Reachable (lookupOp c uid).1
  | release {c : Cache} (uid : Nat) :
      Reachable c → Reachable (releaseOp c uid).1

/-! ### State invariants

The invariant groups below hold in every reachable state (and the first
four also at the intermediate points inside an operation where the proofs
need them). -/

/-- Recency-index invariants: every `last_use` key is a past value of the
use counter, the uids in the index are distinct and were allocated, and
the use counter is non-negative. -/
def LuInv (c : Cache) : Prop :=
  (∀ p ∈ c.byLastUse, 0 ≤ p.1 ∧ p.1 < c.useCounter) ∧
  (c.byLastUse.map Prod.snd).Nodup ∧
  (∀ p ∈ c.byLastUse, p.2 < c.uidCounter) ∧
  0 ≤ c.useCounter ∧
  (c.byLastUse.map Prod.fst).Nodup

/-- Uid-map invariants: every stored entry records its own uid, uids were
allocated by the counter, they are distinct, and every stored entry holds
at least one reference. -/
def StoreInv (c : Cache) : Prop :=
  (∀ p ∈ c.store, (p : Nat × Entry).2.uid = p.1) ∧
  (∀ p ∈ c.store, (p : Nat × Entry).1 < c.uidCounter) ∧
  (c.store.map Prod.fst).Nodup ∧
  (∀ p ∈ c.store, 1 ≤ (p : Nat × Entry).2.refcount)

/-- Identity-map consistency: keys are distinct, the key map points at a
stored entry carrying that key, and every stored entry's key maps back to
its uid. -/
def MapInv (c : Cache) : Prop :=
  (c.keyMap.map Prod.fst).Nodup ∧
  (∀ p ∈ c.keyMap,
    ∃ e, findA c.store (p : String × Nat).2 = some e ∧ e.key = p.1) ∧
  (∀ p ∈ c.store, findA c.keyMap (p : Nat × Entry).2.key = some p.1)

/-- Between operations every stored entry has been finalized. -/
def InitedInv (c : Cache) : Prop :=
  ∀ p ∈ c.store, (p : Nat × Entry).2.initialized = true

/-- The invariants holding between operations, except the
nonempty-recency-index fact: the capacity bound `max(capacity, 1)` on the
active count, and the fact that the most recent use value is still
active. -/
def Inv0 (c : Cache) : Prop :=
  LuInv c ∧ StoreInv c ∧ MapInv c ∧ InitedInv c ∧
  ((c.byLastUse.length : Int) ≤ max c.maxEntries 1) ∧
  (c.byLastUse ≠ [] → ∃ u, ((c.useCounter - 1 : Int), u) ∈ c.byLastUse)

/-- The full between-operations invariant: additionally, whenever any
entry exists at all, at least one entry is active. -/
def Inv (c : Cache) : Prop :=
  Inv0 c ∧ (c.store ≠ [] → c.byLastUse ≠ [])

/-! ### Field-preservation lemmas for the helpers -/

theorem discard_fields (c : Cache) (uid : Nat) :
    (discardEntryRefLocked c uid).byLastUse = c.byLastUse ∧
    (discardEntryRefLocked c uid).useCounter = c.useCounter ∧
    (discardEntryRefLocked c uid).uidCounter = c.uidCounter ∧
    (discardEntryRefLocked c uid).maxEntries = c.maxEntries := by
  unfold discardEntryRefLocked
  cases findA c.store uid with
  | none => exact ⟨rfl, rfl, rfl, rfl⟩
  | some e =>
    dsimp only
    split
    · exact ⟨rfl, rfl, rfl, rfl⟩
    · exact ⟨rfl, rfl, rfl, rfl⟩

theorem markOldest_fields (c : Cache) :
    (markOldestEntryForEviction c).useCounter = c.useCounter ∧
    (markOldestEntryForEviction c).uidCounter = c.uidCounter ∧
    (markOldestEntryForEviction c).maxEntries = c.maxEntries := by
  unfold markOldestEntryForEviction
  cases h : minKey c.byLastUse with
  | none => exact ⟨rfl, rfl, rfl⟩
  | some p =>
    obtain ⟨_, h2, h3, h4⟩ := discard_fields
      { c with byLastUse := eraseKey c.byLastUse p.1 } p.2
    exact ⟨h2, h3, h4⟩

theorem markOldest_byLastUse (c : Cache) {p : Int × Nat}
    (h : minKey c.byLastUse = some p) :
    (markOldestEntryForEviction c).byLastUse = eraseKey c.byLastUse p.1 := by
  unfold markOldestEntryForEviction
  rw [h]
  exact (discard_fields _ _).1

theorem markOldest_length_lt (c : Cache) (h : c.byLastUse ≠ []) :
    (markOldestEntryForEviction c).byLastUse.length < c.byLastUse.length := by
  cases hm : minKey c.byLastUse with
  | none => exact absurd (minKey_eq_none_iff.mp hm) h
  | some p =>
    rw [markOldest_byLastUse c hm]
    have hmem := minKey_mem hm
    have := length_eraseKey_of_mem (findA_ne_none_of_mem hmem)
    omega

theorem evictLoopF_fields (n : Nat) (c : Cache) :
    (evictLoopF n c).useCounter = c.useCounter ∧
    (evictLoopF n c).uidCounter = c.uidCounter ∧
    (evictLoopF n c).maxEntries = c.maxEntries := by
  induction n generalizing c with
  | zero => exact ⟨rfl, rfl, rfl⟩
  | succ n ih =>
    unfold evictLoopF
    split
    · obtain ⟨h1, h2, h3⟩ := ih (markOldestEntryForEviction c)
      obtain ⟨g1, g2, g3⟩ := markOldest_fields c
      exact ⟨h1.trans g1, h2.trans g2, h3.trans g3⟩
    · exact ⟨rfl, rfl, rfl⟩

/-- After the capacity-enforcement loop runs with enough fuel, its guard
is false: the active count is within capacity or a single entry is
active. -/
theorem evictLoopF_stop (n : Nat) (c : Cache)
    (hn : c.byLastUse.length ≤ n) :
    ((evictLoopF n c).byLastUse.length : Int) ≤
      max (evictLoopF n c).maxEntries 1 := by
  induction n generalizing c with
  | zero =>
    have : c.byLastUse.length = 0 := Nat.le_zero.mp hn
    simp only [evictLoopF, this]
    have : (1 : Int) ≤ max c.maxEntries 1 := le_max_right _ _
    omega
  | succ n ih =>
    unfold evictLoopF
    split
    · rename_i hguard
      apply ih
      have hne : c.byLastUse ≠ [] := by
        intro he
        rw [he] at hguard
        simp at hguard
      have := markOldest_length_lt c hne
      omega
    · rename_i hguard
      rw [not_and_or, not_lt, not_lt] at hguard
      rcases hguard with hle | hle
      · exact le_trans hle (le_max_left _ _)
      · have : c.byLastUse.length ≤ 1 := by omega
        have h1 : ((c.byLastUse.length : Int)) ≤ 1 := by exact_mod_cast this
        exact le_trans h1 (le_max_right _ _)

/-! ### Group preservation for the helpers -/

theorem discard_SM (c : Cache) (uid : Nat)
    (hSt : StoreInv c) (hMp : MapInv c) :
    StoreInv (discardEntryRefLocked c uid) ∧
    MapInv (discardEntryRefLocked c uid) := by
  obtain ⟨huid, hlt, hnd, hrc⟩ := hSt
  obtain ⟨hknd, hk2s, hs2k⟩ := hMp
  unfold discardEntryRefLocked
  cases hf : findA c.store uid with
  | none => exact ⟨⟨huid, hlt, hnd, hrc⟩, ⟨hknd, hk2s, hs2k⟩⟩
  | some e =>
    have hmem : (uid, e) ∈ c.store := findA_mem hf
    dsimp only
    split
    · rename_i hone
      refine ⟨⟨?_, ?_, ?_, ?_⟩, ⟨?_, ?_, ?_⟩⟩
      · exact fun p hp => huid p (mem_eraseKey hp)
      · exact fun p hp => hlt p (mem_eraseKey hp)
      · exact hnd.sublist map_fst_eraseKey_sublist
      · exact fun p hp => hrc p (mem_eraseKey hp)
      · exact hknd.sublist map_fst_eraseKey_sublist
      · intro p hp
        obtain ⟨e0, hfind, hkey⟩ := hk2s p (mem_eraseKey hp)
        by_cases hpu : p.2 = uid
        · exfalso
          rw [hpu, hf] at hfind
          have he0 : e = e0 := Option.some.inj hfind
          exact fst_ne_of_mem_eraseKey_nodup hknd hp (by rw [← hkey, ← he0])
        · exact ⟨e0, by rw [findA_eraseKey_ne hpu]; exact hfind, hkey⟩
      · intro p hp
        have hpm := mem_eraseKey hp
        have hps := hs2k p hpm
        by_cases hpk : (p : Nat × Entry).2.key = e.key
        · exfalso
          have huide := hs2k (uid, e) hmem
          rw [hpk, huide] at hps
          have : (p : Nat × Entry).1 = uid := by injection hps.symm
          exact fst_ne_of_mem_eraseKey_nodup hnd hp this
        · rw [findA_eraseKey_ne hpk]
          exact hps
    · rename_i hone
      refine ⟨⟨?_, ?_, ?_, ?_⟩, ⟨hknd, ?_, ?_⟩⟩
      · intro p hp
        rcases mem_updateA hp with rfl | ⟨hpm, _⟩
        · exact huid (uid, e) hmem
        · exact huid p hpm
      · intro p hp
        rcases mem_updateA hp with rfl | ⟨hpm, _⟩
        · exact hlt (uid, e) hmem
        · exact hlt p hpm
      · rw [show ((updateA c.store uid
          ({ e with refcount := e.refcount - 1 } : Entry)).map Prod.fst) =
            c.store.map Prod.fst from map_fst_updateA]
        exact hnd
      · intro p hp
        rcases mem_updateA hp with rfl | ⟨hpm, _⟩
        · have h2 : 1 ≤ e.refcount := hrc (uid, e) hmem
          show 1 ≤ e.refcount - 1
          omega
        · exact hrc p hpm
      · intro p hp
        obtain ⟨e0, hfind, hkey⟩ := hk2s p hp
        by_cases hpu : p.2 = uid
        · rw [hpu] at hfind ⊢
          rw [hf] at hfind
          have he0 : e = e0 := Option.some.inj hfind
          refine ⟨_, findA_updateA_self (by rw [hf]; exact fun h => by cases h),
            ?_⟩
          have hek : ({ e with refcount := e.refcount - 1 } : Entry).key =
              e.key := rfl
          rw [hek, ← hkey, he0]
        · rw [findA_updateA_ne hpu]
          exact ⟨e0, hfind, hkey⟩
      · intro p hp
        rcases mem_updateA hp with rfl | ⟨hpm, _⟩
        · exact hs2k (uid, e) hmem
        · exact hs2k p hpm

theorem discard_lu (c : Cache) (uid : Nat) (hLu : LuInv c) :
    LuInv (discardEntryRefLocked c uid) := by
  unfold discardEntryRefLocked
  cases hf : findA c.store uid with
  | none => exact hLu
  | some e =>
    dsimp only
    split
    · exact hLu
    · exact hLu

theorem discard_inited (c : Cache) (uid : Nat) (hIn : InitedInv c) :
    InitedInv (discardEntryRefLocked c uid) := by
  unfold discardEntryRefLocked
  cases hf : findA c.store uid with
  | none => exact hIn
  | some e =>
    have hmem : (uid, e) ∈ c.store := findA_mem hf
    dsimp only
    split
    · exact fun p hp => hIn p (mem_eraseKey hp)
    · intro p hp
      rcases mem_updateA hp with rfl | ⟨hpm, _⟩
      · exact hIn (uid, e) hmem
      · exact hIn p hpm

theorem markOldest_SM (c : Cache)
    (hSt : StoreInv c) (hMp : MapInv c) :
    StoreInv (markOldestEntryForEviction c) ∧
    MapInv (markOldestEntryForEviction c) := by
  unfold markOldestEntryForEviction
  cases hm : minKey c.byLastUse with
  | none => exact ⟨hSt, hMp⟩
  | some p => exact discard_SM _ p.2 hSt hMp

theorem markOldest_lu (c : Cache) (hLu : LuInv c) :
    LuInv (markOldestEntryForEviction c) := by
  unfold markOldestEntryForEviction
  cases hm : minKey c.byLastUse with
  | none => exact hLu
  | some p =>
    obtain ⟨hkeys, hvnd, hvlt, huc, hlknd⟩ := hLu
    exact discard_lu _ p.2
      ⟨fun q hq => hkeys q (mem_eraseKey hq),
       hvnd.sublist map_snd_eraseKey_sublist,
       fun q hq => hvlt q (mem_eraseKey hq), huc,
       hlknd.sublist map_fst_eraseKey_sublist⟩

theorem markOldest_inited (c : Cache) (hIn : InitedInv c) :
    InitedInv (markOldestEntryForEviction c) := by
  unfold markOldestEntryForEviction
  cases hm : minKey c.byLastUse with
  | none => exact hIn
  | some p => exact discard_inited _ p.2 hIn

theorem bumpRef_groups (c : Cache) (uid : Nat)
    (hLu : LuInv c) (hSt : StoreInv c) (hMp : MapInv c) (hIn : InitedInv c) :
    LuInv (bumpRef c uid) ∧ StoreInv (bumpRef c uid) ∧
    MapInv (bumpRef c uid) ∧ InitedInv (bumpRef c uid) := by
  obtain ⟨huid, hlt, hnd, hrc⟩ := hSt
  obtain ⟨hknd, hk2s, hs2k⟩ := hMp
  unfold bumpRef
  cases hf : findA c.store uid with
  | none => exact ⟨hLu, ⟨huid, hlt, hnd, hrc⟩, ⟨hknd, hk2s, hs2k⟩, hIn⟩
  | some e =>
    have hmem : (uid, e) ∈ c.store := findA_mem hf
    dsimp only
    refine ⟨hLu, ⟨?_, ?_, ?_, ?_⟩, ⟨hknd, ?_, ?_⟩, ?_⟩
    · intro p hp
      rcases mem_updateA hp with rfl | ⟨hpm, _⟩
      · exact huid (uid, e) hmem
      · exact huid p hpm
    · intro p hp
      rcases mem_updateA hp with rfl | ⟨hpm, _⟩
      · exact hlt (uid, e) hmem
      · exact hlt p hpm
    · rw [show ((updateA c.store uid
        ({ e with refcount := e.refcount + 1 } : Entry)).map Prod.fst) =
          c.store.map Prod.fst from map_fst_updateA]
      exact hnd
    · intro p hp
      rcases mem_updateA hp with rfl | ⟨hpm, _⟩
      · show 1 ≤ e.refcount + 1
        omega
      · exact hrc p hpm
    · intro p hp
      obtain ⟨e0, hfind, hkey⟩ := hk2s p hp
      by_cases hpu : p.2 = uid
      · rw [hpu] at hfind ⊢
        rw [hf] at hfind
        have he0 : e = e0 := Option.some.inj hfind
        refine ⟨_, findA_updateA_self (by rw [hf]; exact fun h => by cases h),
          ?_⟩
        have hek : ({ e with refcount := e.refcount + 1 } : Entry).key =
            e.key := rfl
        rw [hek, ← hkey, he0]
      · rw [findA_updateA_ne hpu]
        exact ⟨e0, hfind, hkey⟩
    · intro p hp
      rcases mem_updateA hp with rfl | ⟨hpm, _⟩
      · exact hs2k (uid, e) hmem
      · exact hs2k p hpm
    · intro p hp
      rcases mem_updateA hp with rfl | ⟨hpm, _⟩
      · exact hIn (uid, e) hmem
      · exact hIn p hpm

theorem evictLoopF_SM (n : Nat) (c : Cache)
    (hSt : StoreInv c) (hMp : MapInv c) :
    StoreInv (evictLoopF n c) ∧ MapInv (evictLoopF n c) := by
  induction n generalizing c with
  | zero => exact ⟨hSt, hMp⟩
  | succ n ih =>
    unfold evictLoopF
    split
    · obtain ⟨g1, g2⟩ := markOldest_SM c hSt hMp
      exact ih _ g1 g2
    · exact ⟨hSt, hMp⟩

theorem evictLoopF_lu (n : Nat) (c : Cache) (hLu : LuInv c) :
    LuInv (evictLoopF n c) := by
  induction n generalizing c with
  | zero => exact hLu
  | succ n ih =>
    unfold evictLoopF
    split
    · exact ih _ (markOldest_lu c hLu)
    · exact hLu

theorem evictLoopF_inited (n : Nat) (c : Cache) (hIn : InitedInv c) :
    InitedInv (evictLoopF n c) := by
  induction n generalizing c with
  | zero => exact hIn
  | succ n ih =>
    unfold evictLoopF
    split
    · exact ih _ (markOldest_inited c hIn)
    · exact hIn

/-- Core survival lemma for the eviction loop: when the recency index has
the shape `(lu, uid) :: rest` with every pair in `rest` strictly older
than `lu` and bound to a different uid, the loop only ever marks entries
drawn from `rest`; the head pair survives, the entry for `uid` is
untouched in the uid map, and any key bound to `uid` stays bound. -/
theorem evictLoopF_head (n : Nat) (c : Cache) (lu : Int) (uid : Nat)
    (rest : List (Int × Nat))
    (hsh : c.byLastUse = (lu, uid) :: rest)
    (hdom : ∀ q ∈ rest, q.1 < lu)
    (hval : ∀ q ∈ rest, q.2 ≠ uid)
    (hSt : StoreInv c) (hMp : MapInv c) :
    ∃ rest', (evictLoopF n c).byLastUse = (lu, uid) :: rest' ∧
      (∀ q ∈ rest', q ∈ rest) ∧
      findA (evictLoopF n c).store uid = findA c.store uid ∧
      (∀ k : String, findA c.keyMap k = some uid →
        findA (evictLoopF n c).keyMap k = some uid) := by
  induction n generalizing c lu rest with
  | zero => exact ⟨rest, hsh, fun q hq => hq, rfl, fun k hk => hk⟩
  | succ n ih =>
    unfold evictLoopF
    split
    · rename_i hguard
      have hrest : rest ≠ [] := by
        intro he
        rw [hsh, he] at hguard
        simp at hguard
      obtain ⟨q0, hq0⟩ := List.exists_mem_of_ne_nil rest hrest
      cases hm : minKey c.byLastUse with
      | none =>
        exfalso
        rw [minKey_eq_none_iff, hsh] at hm
        cases hm
      | some p =>
        have hpmem : p ∈ c.byLastUse := minKey_mem hm
        have hple : p.1 ≤ q0.1 :=
          minKey_le hm q0 (by rw [hsh]; exact List.mem_cons_of_mem _ hq0)
        have hplt : p.1 < lu := lt_of_le_of_lt hple (hdom q0 hq0)
        have hpr : p ∈ rest := by
          rw [hsh] at hpmem
          rcases List.mem_cons.mp hpmem with rfl | hx
          · exact absurd rfl (ne_of_lt hplt)
          · exact hx
        have hpuid : p.2 ≠ uid := hval p hpr
        have hbl1 : (markOldestEntryForEviction c).byLastUse =
            (lu, uid) :: eraseKey rest p.1 := by
          rw [markOldest_byLastUse c hm, hsh]
          rw [show eraseKey ((lu, uid) :: rest) p.1 =
            (lu, uid) :: eraseKey rest p.1 from by
              simp [eraseKey, ne_of_gt hplt]]
        have hmo : markOldestEntryForEviction c =
            discardEntryRefLocked
              { c with byLastUse := eraseKey c.byLastUse p.1 } p.2 := by
          unfold markOldestEntryForEviction
          rw [hm]
        have hstoreeq : findA (markOldestEntryForEviction c).store uid =
            findA c.store uid := by
          rw [hmo]
          unfold discardEntryRefLocked
          dsimp only
          cases hf : findA c.store p.2 with
          | none => rfl
          | some e =>
            dsimp only
            split
            · exact findA_eraseKey_ne (fun h => hpuid h.symm)
            · exact findA_updateA_ne (fun h => hpuid h.symm)
        have hkeyeq : ∀ k : String, findA c.keyMap k = some uid →
            findA (markOldestEntryForEviction c).keyMap k = some uid := by
          intro k hk
          rw [hmo]
          unfold discardEntryRefLocked
          dsimp only
          cases hf : findA c.store p.2 with
          | none => exact hk
          | some e =>
            dsimp only
            split
            · have hs2k := hMp.2.2 (p.2, e) (findA_mem hf)
              by_cases hek : e.key = k
              · exfalso
                rw [hek, hk] at hs2k
                exact hpuid (Option.some.inj hs2k).symm
              · show findA (eraseKey c.keyMap e.key) k = some uid
                rw [findA_eraseKey_ne (fun h => hek h.symm)]
                exact hk
            · exact hk
        obtain ⟨g1, g2⟩ := markOldest_SM c hSt hMp
        obtain ⟨rest1, h1, h2, h3, h4⟩ := ih (markOldestEntryForEviction c)
          lu (eraseKey rest p.1) hbl1
          (fun q hq => hdom q (mem_eraseKey hq))
          (fun q hq => hval q (mem_eraseKey hq)) g1 g2
        exact ⟨rest1, h1, fun q hq => mem_eraseKey (h2 q hq),
          h3.trans hstoreeq, fun k hk => h4 k (hkeyeq k hk)⟩
    · exact ⟨rest, hsh, fun q hq => hq, rfl, fun k hk => hk⟩

theorem bumpRef_fields (c : Cache) (uid : Nat) :
    (bumpRef c uid).byLastUse = c.byLastUse ∧
    (bumpRef c uid).keyMap = c.keyMap ∧
    (bumpRef c uid).useCounter = c.useCounter ∧
    (bumpRef c uid).uidCounter = c.uidCounter ∧
    (bumpRef c uid).maxEntries = c.maxEntries := by
  unfold bumpRef
  cases findA c.store uid with
  | none => exact ⟨rfl, rfl, rfl, rfl, rfl⟩
  | some e => exact ⟨rfl, rfl, rfl, rfl, rfl⟩

/-- The state built by the first half of the recency bump: the entry's
`last_use` is set to the current use counter, the counter advances, and
the entry's recency-index slot is replaced by a fresh one at the head. -/
def touchedState (c : Cache) (uid : Nat) (e : Entry) : Cache :=
  { c with
    store := updateA c.store uid ({ e with lastUse := c.useCounter }),
    byLastUse := (c.useCounter, uid) :: eraseVal c.byLastUse uid,
    useCounter := c.useCounter + 1 }

theorem touchEntry_none (c : Cache) (uid : Nat)
    (hf : findA c.store uid = none) : touchEntry c uid = c := by
  unfold touchEntry
  rw [hf]

theorem touchEntry_found (c : Cache) (uid : Nat) (e : Entry)
    (hf : findA c.store uid = some e) :
    touchEntry c uid =
      if containsVal c.byLastUse uid then touchedState c uid e
      else lookupEntryMarkedForEviction (touchedState c uid e) uid := by
  unfold touchEntry
  rw [hf]
  rfl

theorem touchedState_groups (c : Cache) (uid : Nat) (e : Entry)
    (hf : findA c.store uid = some e)
    (hLu : LuInv c) (hSt : StoreInv c) (hMp : MapInv c) (hIn : InitedInv c) :
    LuInv (touchedState c uid e) ∧ StoreInv (touchedState c uid e) ∧
    MapInv (touchedState c uid e) ∧ InitedInv (touchedState c uid e) := by
  obtain ⟨hkeys, hvnd, hvlt, huc, hlknd⟩ := hLu
  obtain ⟨huid, hult, hsnd, hrc⟩ := hSt
  obtain ⟨hknd, hk2s, hs2k⟩ := hMp
  have hmem : (uid, e) ∈ c.store := findA_mem hf
  refine ⟨⟨?_, ?_, ?_, by show (0 : Int) ≤ c.useCounter + 1; omega, ?_⟩,
    ⟨?_, ?_, ?_, ?_⟩, ⟨hknd, ?_, ?_⟩, ?_⟩
  · intro p hp
    rcases List.mem_cons.mp hp with rfl | hmem2
    · constructor
      · exact huc
      · show c.useCounter < c.useCounter + 1
        omega
    · obtain ⟨h1, h2⟩ := hkeys p (mem_eraseVal hmem2)
      exact ⟨h1, by show p.1 < c.useCounter + 1; omega⟩
  · show (((c.useCounter, uid) :: eraseVal c.byLastUse uid).map
      Prod.snd).Nodup
    rw [List.map_cons, List.nodup_cons]
    constructor
    · intro hin
      rcases List.mem_map.mp hin with ⟨q, hq, hq2⟩
      exact snd_ne_of_mem_eraseVal hq hq2
    · exact hvnd.sublist map_snd_eraseVal_sublist
  · intro p hp
    rcases List.mem_cons.mp hp with rfl | hmem2
    · exact hult (uid, e) hmem
    · exact hvlt p (mem_eraseVal hmem2)
  · show ((((c.useCounter, uid) :: eraseVal c.byLastUse uid).map
      Prod.fst)).Nodup
    rw [List.map_cons, List.nodup_cons]
    constructor
    · intro hin
      rcases List.mem_map.mp hin with ⟨q, hq, hq2⟩
      have := (hkeys q (mem_eraseVal hq)).2
      omega
    · exact hlknd.sublist map_fst_eraseVal_sublist
  · intro p hp
    rcases mem_updateA hp with rfl | ⟨hpm, _⟩
    · exact huid (uid, e) hmem
    · exact huid p hpm
  · intro p hp
    rcases mem_updateA hp with rfl | ⟨hpm, _⟩
    · exact hult (uid, e) hmem
    · exact hult p hpm
  · show ((updateA c.store uid
      ({ e with lastUse := c.useCounter } : Entry)).map Prod.fst).Nodup
    rw [map_fst_updateA]
    exact hsnd
  · intro p hp
    rcases mem_updateA hp with rfl | ⟨hpm, _⟩
    · exact hrc (uid, e) hmem
    · exact hrc p hpm
  · intro p hp
    obtain ⟨e0, hfind, hkey⟩ := hk2s p hp
    by_cases hpu : p.2 = uid
    · rw [hpu] at hfind ⊢
      rw [hf] at hfind
      have he0 : e = e0 := Option.some.inj hfind
      refine ⟨_, findA_updateA_self (by rw [hf]; exact fun h => by cases h),
        ?_⟩
      have hek : ({ e with lastUse := c.useCounter } : Entry).key =
          e.key := rfl
      rw [hek, ← hkey, he0]
    · rw [show findA (touchedState c uid e).store p.2 =
        findA (updateA c.store uid
          ({ e with lastUse := c.useCounter } : Entry)) p.2 from rfl]
      rw [findA_updateA_ne hpu]
      exact ⟨e0, hfind, hkey⟩
  · intro p hp
    rcases mem_updateA hp with rfl | ⟨hpm, _⟩
    · exact hs2k (uid, e) hmem
    · exact hs2k p hpm
  · intro p hp
    rcases mem_updateA hp with rfl | ⟨hpm, _⟩
    · exact hIn (uid, e) hmem
    · exact hIn p hpm

/-- The recency bump preserves the between-operations invariants, and
when the touched uid is present the recency index is left nonempty. -/
theorem touch_inv0 (c : Cache) (uid : Nat) (h0 : Inv0 c) :
    Inv0 (touchEntry c uid) ∧
    (findA c.store uid ≠ none → (touchEntry c uid).byLastUse ≠ []) := by
  obtain ⟨hLu, hSt, hMp, hIn, hbd, hmru⟩ := h0
  cases hf : findA c.store uid with
  | none =>
    rw [touchEntry_none c uid hf]
    exact ⟨⟨hLu, hSt, hMp, hIn, hbd, hmru⟩, fun hn => absurd rfl hn⟩
  | some e =>
    rw [touchEntry_found c uid e hf]
    obtain ⟨g1, g2, g3, g4⟩ := touchedState_groups c uid e hf hLu hSt hMp hIn
    by_cases hc : containsVal c.byLastUse uid = true
    · rw [if_pos hc]
      refine ⟨⟨g1, g2, g3, g4, ?_, ?_⟩, fun _ => by
        show (c.useCounter, uid) :: eraseVal c.byLastUse uid ≠ []
        simp⟩
      · show ((((c.useCounter, uid) ::
          eraseVal c.byLastUse uid).length : Int)) ≤ max c.maxEntries 1
        have hlen := length_eraseVal_of_contains hLu.2.1 hc
        rw [List.length_cons]
        have : ((c.byLastUse.length : Int)) ≤ max c.maxEntries 1 := hbd
        omega
      · intro _
        refine ⟨uid, ?_⟩
        have : ((c.useCounter + 1 : Int) - 1) = c.useCounter := by omega
        rw [show (touchedState c uid e).useCounter = c.useCounter + 1 from
          rfl, this]
        exact List.mem_cons_self _ _
    · rw [if_neg hc]
      have hcf : containsVal c.byLastUse uid = false :=
        Bool.not_eq_true _ ▸ (by simpa using hc)
      have hby1 : (touchedState c uid e).byLastUse =
          (c.useCounter, uid) :: c.byLastUse := by
        show (c.useCounter, uid) :: eraseVal c.byLastUse uid = _
        rw [eraseVal_of_not_contains hcf]
      -- the state entering the eviction loop
      obtain ⟨b1, b2, b3, b4⟩ :=
        bumpRef_groups _ uid g1 g2 g3 g4
      obtain ⟨hfby, hfkey, hfuc, hfuid, hfmax⟩ :=
        bumpRef_fields (touchedState c uid e) uid
      have hby2 : (bumpRef (touchedState c uid e) uid).byLastUse =
          (c.useCounter, uid) :: c.byLastUse := by rw [hfby, hby1]
      have hdom : ∀ q ∈ c.byLastUse, q.1 < c.useCounter :=
        fun q hq => (hLu.1 q hq).2
      have hval : ∀ q ∈ c.byLastUse, q.2 ≠ uid :=
        containsVal_eq_false_iff.mp hcf
      obtain ⟨rest1, hr1, hr2, _, _⟩ :=
        evictLoopF_head
          (bumpRef (touchedState c uid e) uid).byLastUse.length
          (bumpRef (touchedState c uid e) uid)
          c.useCounter uid c.byLastUse hby2 hdom hval b2 b3
      have hres : lookupEntryMarkedForEviction (touchedState c uid e) uid =
          evictLoopF (bumpRef (touchedState c uid e) uid).byLastUse.length
            (bumpRef (touchedState c uid e) uid) := rfl
      rw [hres]
      obtain ⟨e1, e2, e3⟩ :=
        evictLoopF_fields
          (bumpRef (touchedState c uid e) uid).byLastUse.length
          (bumpRef (touchedState c uid e) uid)
      obtain ⟨s1, s2⟩ :=
        evictLoopF_SM
          (bumpRef (touchedState c uid e) uid).byLastUse.length
          (bumpRef (touchedState c uid e) uid) b2 b3
      refine ⟨⟨evictLoopF_lu _ _ b1, s1, s2, evictLoopF_inited _ _ b4,
        ?_, ?_⟩, fun _ => by rw [hr1]; simp⟩
      · exact evictLoopF_stop _ _ (le_refl _)
      · intro _
        refine ⟨uid, ?_⟩
        rw [e1, hfuc]
        have : (((touchedState c uid e).useCounter : Int) - 1) =
            c.useCounter := by
          show ((c.useCounter + 1 : Int) - 1) = c.useCounter
          omega
        rw [this, hr1]
        exact List.mem_cons_self _ _

/-- The entry created and finalized by the miss path: fresh uid, the
caller's single reference, the callback's status, and the payload kept
only on success. -/
def freshEntry (c : Cache) (key : String) (f : St × Option Nat) : Entry :=
  { key := key, uid := c.uidCounter, initialized := true, initStatus := f.1,
    lastUse := -1, program := if f.1.isOk then f.2 else none, refcount := 1 }

theorem initializeEntry_eq (c : Cache) (key : String) (f : St × Option Nat) :
    initializeEntry c key f =
      ({ c with
          uidCounter := c.uidCounter + 1,
          store := updateA ((c.uidCounter, blankEntry c key) :: c.store)
            c.uidCounter (freshEntry c key f),
          keyMap := (key, c.uidCounter) :: c.keyMap }, c.uidCounter) := by
  unfold initializeEntry createEntry finalizeEntry
  dsimp only
  rw [show findA ((c.uidCounter, blankEntry c key) :: c.store) c.uidCounter =
    some (blankEntry c key) from findA_cons_self]
  rfl

theorem initializeEntry_inv0 (c : Cache) (key : String) (f : St × Option Nat)
    (hkey : findA c.keyMap key = none) (h0 : Inv0 c) :
    Inv0 (initializeEntry c key f).1 ∧
    findA (initializeEntry c key f).1.store c.uidCounter =
      some (freshEntry c key f) ∧
    findA (initializeEntry c key f).1.keyMap key = some c.uidCounter ∧
    (initializeEntry c key f).1.byLastUse = c.byLastUse ∧
    (initializeEntry c key f).1.useCounter = c.useCounter ∧
    (initializeEntry c key f).2 = c.uidCounter := by
  obtain ⟨⟨hkeys, hvnd, hvlt, huc, hlknd⟩, ⟨huid, hult, hsnd, hrc⟩,
    ⟨hknd, hk2s, hs2k⟩, hIn, hbd, hmru⟩ := h0
  rw [initializeEntry_eq]
  dsimp only
  have hfind0 : findA ((c.uidCounter, blankEntry c key) :: c.store)
      c.uidCounter ≠ none := by
    rw [findA_cons_self]
    exact fun h => by cases h
  have hfnew : findA (updateA ((c.uidCounter, blankEntry c key) :: c.store)
      c.uidCounter (freshEntry c key f)) c.uidCounter =
        some (freshEntry c key f) :=
    findA_updateA_self hfind0
  have hother : ∀ u : Nat, u ≠ c.uidCounter →
      findA (updateA ((c.uidCounter, blankEntry c key) :: c.store)
        c.uidCounter (freshEntry c key f)) u = findA c.store u := by
    intro u hu
    rw [findA_updateA_ne hu, findA_cons_ne (by exact hu.symm)]
  refine ⟨⟨⟨hkeys, hvnd, ?_, huc, hlknd⟩, ⟨?_, ?_, ?_, ?_⟩, ⟨?_, ?_, ?_⟩,
    ?_, hbd, hmru⟩, hfnew, findA_cons_self, rfl, rfl, rfl⟩
  · intro p hp
    have := hvlt p hp
    show p.2 < c.uidCounter + 1
    omega
  · intro p hp
    rcases mem_updateA hp with rfl | ⟨hpm, hpne⟩
    · rfl
    · rcases List.mem_cons.mp hpm with rfl | hmem2
      · exact absurd rfl hpne
      · exact huid p hmem2
  · intro p hp
    rcases mem_updateA hp with rfl | ⟨hpm, hpne⟩
    · show c.uidCounter < c.uidCounter + 1
      omega
    · rcases List.mem_cons.mp hpm with rfl | hmem2
      · exact absurd rfl hpne
      · have := hult p hmem2
        show p.1 < c.uidCounter + 1
        omega
  · rw [map_fst_updateA, List.map_cons, List.nodup_cons]
    constructor
    · intro hin
      rcases List.mem_map.mp hin with ⟨q, hq, hq2⟩
      have := hult q hq
      omega
    · exact hsnd
  · intro p hp
    rcases mem_updateA hp with rfl | ⟨hpm, hpne⟩
    · show (1 : Nat) ≤ 1
      exact le_refl 1
    · rcases List.mem_cons.mp hpm with rfl | hmem2
      · exact absurd rfl hpne
      · exact hrc p hmem2
  · rw [List.map_cons, List.nodup_cons]
    constructor
    · intro hin
      rcases List.mem_map.mp hin with ⟨q, hq, hq2⟩
      exact (findA_eq_none.mp hkey q hq) hq2
    · exact hknd
  · intro p hp
    rcases List.mem_cons.mp hp with rfl | hmem2
    · exact ⟨freshEntry c key f, hfnew, rfl⟩
    · obtain ⟨e0, hfind, hkeyp⟩ := hk2s p hmem2
      have hne : p.2 ≠ c.uidCounter := by
        have := hult (p.2, e0) (findA_mem hfind)
        omega
      exact ⟨e0, by rw [hother p.2 hne]; exact hfind, hkeyp⟩
  · intro p hp
    rcases mem_updateA hp with rfl | ⟨hpm, hpne⟩
    · show findA ((key, c.uidCounter) :: c.keyMap)
        (freshEntry c key f).key = some c.uidCounter
      exact findA_cons_self
    · rcases List.mem_cons.mp hpm with rfl | hmem2
      · exact absurd rfl hpne
      · have hs := hs2k p hmem2
        have hne : (p : Nat × Entry).2.key ≠ key := by
          intro he
          rw [he, hkey] at hs
          cases hs
        rw [findA_cons_ne (by exact fun he => hne he.symm)]
        exact hs
  · intro p hp
    rcases mem_updateA hp with rfl | ⟨hpm, hpne⟩
    · rfl
    · rcases List.mem_cons.mp hpm with rfl | hmem2
      · exact absurd rfl hpne
      · exact hIn p hmem2

theorem inv0_bumpRef (c : Cache) (uid : Nat) (h0 : Inv0 c) :
    Inv0 (bumpRef c uid) := by
  obtain ⟨hLu, hSt, hMp, hIn, hbd, hmru⟩ := h0
  obtain ⟨g1, g2, g3, g4⟩ := bumpRef_groups c uid hLu hSt hMp hIn
  obtain ⟨f1, f2, f3, f4, f5⟩ := bumpRef_fields c uid
  refine ⟨g1, g2, g3, g4, ?_, ?_⟩
  · rw [f1, f5]
    exact hbd
  · rw [f1, f3]
    exact hmru

/-- Each cache operation preserves the full invariant. -/
theorem compileIfAbsent_inv (c : Cache) (k : String) (f : St × Option Nat)
    (h : Inv c) : Inv (compileIfAbsent c k f).1 := by
  obtain ⟨h0, hsn⟩ := h
  unfold compileIfAbsent
  cases hk : findA c.keyMap k with
  | some uid =>
    dsimp only
    have hkm : (k, uid) ∈ c.keyMap := findA_mem hk
    obtain ⟨e0, hf0, _⟩ := h0.2.2.1.2.1 (k, uid) hkm
    have hf1 : findA (bumpRef c uid).store uid ≠ none := by
      unfold bumpRef
      rw [hf0]
      dsimp only
      rw [findA_updateA_self (by rw [hf0]; exact fun h => by cases h)]
      exact fun h => by cases h
    obtain ⟨ht0, ht1⟩ := touch_inv0 (bumpRef c uid) uid (inv0_bumpRef c uid h0)
    exact ⟨ht0, fun _ => ht1 hf1⟩
  | none =>
    dsimp only
    obtain ⟨i0, ifind, _, _, _, _⟩ := initializeEntry_inv0 c k f hk h0
    have hf1 : findA (initializeEntry c k f).1.store
        (initializeEntry c k f).2 ≠ none := by
      rw [show (initializeEntry c k f).2 = c.uidCounter from by
        rw [initializeEntry_eq]]
      rw [ifind]
      exact fun h => by cases h
    obtain ⟨ht0, ht1⟩ := touch_inv0 (initializeEntry c k f).1
      (initializeEntry c k f).2 i0
    exact ⟨ht0, fun _ => ht1 hf1⟩

theorem lookupOp_inv (c : Cache) (uid : Nat) (h : Inv c) :
    Inv (lookupOp c uid).1 := by
  obtain ⟨h0, hsn⟩ := h
  unfold lookupOp
  cases hf : findA c.store uid with
  | none => exact ⟨h0, hsn⟩
  | some e =>
    dsimp only
    have hf1 : findA (bumpRef c uid).store uid ≠ none := by
      unfold bumpRef
      rw [hf]
      dsimp only
      rw [findA_updateA_self (by rw [hf]; exact fun h => by cases h)]
      exact fun h => by cases h
    obtain ⟨ht0, ht1⟩ := touch_inv0 (bumpRef c uid) uid (inv0_bumpRef c uid h0)
    exact ⟨ht0, fun _ => ht1 hf1⟩

theorem releaseOp_inv (c : Cache) (uid : Nat) (h : Inv c) :
    Inv (releaseOp c uid).1 := by
  obtain ⟨⟨hLu, hSt, hMp, hIn, hbd, hmru⟩, hsn⟩ := h
  unfold releaseOp
  cases hf : findA c.store uid with
  | none => exact ⟨⟨hLu, hSt, hMp, hIn, hbd, hmru⟩, hsn⟩
  | some e =>
    dsimp only
    obtain ⟨g1, g2⟩ := discard_SM c uid hSt hMp
    obtain ⟨f1, f2, f3, f4⟩ := discard_fields c uid
    refine ⟨⟨discard_lu c uid hLu, g1, g2, discard_inited c uid hIn,
      ?_, ?_⟩, ?_⟩
    · rw [f1, f4]
      exact hbd
    · rw [f1, f2]
      exact hmru
    · intro hne
      rw [f1]
      apply hsn
      intro hse
      unfold discardEntryRefLocked at hne
      rw [hf] at hne
      dsimp only at hne
      rw [hse] at hne
      revert hne
      split
      · intro hne
        exact hne (by rw [show eraseKey ([] : List (Nat × Entry)) uid = []
          from rfl])
      · intro hne
        exact hne rfl

/-- Every reachable state satisfies the invariant. -/
theorem reachable_inv {c : Cache} (h : Reachable c) : Inv c := by
  induction h with
  | init cap =>
    refine ⟨⟨⟨?_, ?_, ?_, ?_, ?_⟩, ⟨?_, ?_, ?_, ?_⟩, ⟨?_, ?_, ?_⟩, ?_, ?_,
      ?_⟩, ?_⟩
    · intro p hp
      simp [initCache] at hp
    · simp [initCache]
    · intro p hp
      simp [initCache] at hp
    · simp [initCache]
    · simp [initCache]
    · intro p hp
      simp [initCache] at hp
    · intro p hp
      simp [initCache] at hp
    · simp [initCache]
    · intro p hp
      simp [initCache] at hp
    · simp [initCache]
    · intro p hp
      simp [initCache] at hp
    · intro p hp
      simp [initCache] at hp
    · intro p hp
      simp [initCache] at hp
    · show ((([] : List (Int × Nat)).length : Int)) ≤ max cap 1
      simp only [List.length_nil, Nat.cast_zero]
      exact le_trans zero_le_one (le_max_right _ _)
    · intro hne
      simp [initCache] at hne
    · intro hne
      simp [initCache] at hne
  | compile k f _ ih => exact compileIfAbsent_inv _ k f ih
  | look uid _ ih => exact lookupOp_inv _ uid ih
  | release uid _ ih => exact releaseOp_inv _ uid ih

/-! ### Simple per-operation claims -/

/-- C5: `Lookup` and `Release` called with a uid not present in the uid
map return `NotFound` and leave the entire cache state — hence every other
entry's refcount, `last_use`, eviction marking, and map membership —
unchanged. -/
theorem lookup_release_unknown_uid (c : Cache) (uid : Nat)
    (h : findA c.store uid = none) :
    lookupOp c uid = (c, St.notFound) ∧ releaseOp c uid = (c, St.notFound) := by
  constructor
  · unfold lookupOp
    rw [h]
  · unfold releaseOp
    rw [h]

/-- Witness for C5: uid `5` is unknown in a cache that holds only the
entry for key `"a"` (uid `0`); both operations return `NotFound`
unchanged. -/
theorem lookup_release_unknown_uid_witness :
    findA (compileIfAbsent (initCache 2) "a" (St.ok, some 1)).1.store 5 =
      none ∧
    lookupOp (compileIfAbsent (initCache 2) "a" (St.ok, some 1)).1 5 =
      ((compileIfAbsent (initCache 2) "a" (St.ok, some 1)).1, St.notFound) :=
  ⟨by decide,
   (lookup_release_unknown_uid
     (compileIfAbsent (initCache 2) "a" (St.ok, some 1)).1 5 (by decide)).1⟩

/-- C8: constructing the cache with a non-positive capacity is rejected
with `InvalidArgument`; a positive capacity constructs successfully. -/
theorem mkCache_capacity_check (cap : Int) :
    (cap ≤ 0 → mkCache cap = Except.error St.invalidArgument) ∧
    (0 < cap → mkCache cap = Except.ok (initCache cap)) := by
  constructor
  · intro h
    simp [mkCache, h]
  · intro h
    simp [mkCache, not_le.mpr h]

/-- Witness for C8: capacity `0` is rejected and capacity `3` is
accepted. -/
theorem mkCache_capacity_check_witness :
    mkCache 0 = Except.error St.invalidArgument ∧
    mkCache 3 = Except.ok (initCache 3) :=
  ⟨(mkCache_capacity_check 0).1 (by decide),
   (mkCache_capacity_check 3).2 (by decide)⟩

/-- C10: `GetOrCreateCompilationCache` called with
`max_number_of_entries = 0` does not fail: the capacity is resolved from
the `TF_XRT_COMPILATION_CACHE_SIZE` environment variable (modelled by
`envSize`, positive as a usable configured size) before construction, so
zero is accepted at this outer interface. -/
theorem getOrCreate_zero_ok (envSize : Int) (h : 0 < envSize) :
    getOrCreateCompilationCache envSize 0 = Except.ok (initCache envSize) := by
  unfold getOrCreateCompilationCache
  simpa using (mkCache_capacity_check envSize).2 h

/-- Witness for C10: with the environment-configured size `1024`, asking
for zero entries succeeds. -/
theorem getOrCreate_zero_ok_witness :
    getOrCreateCompilationCache 1024 0 = Except.ok (initCache 1024) :=
  getOrCreate_zero_ok 1024 (by decide)

/-- C6: with capacity 2, after `CompileIfKeyAbsent` for keys `A` (uid 0)
then `B` (uid 1) with no intervening lookups and then for a new key `C`
(uid 2), entry `A` — the least recently used — is marked for eviction
(absent from the recency index but still stored), while `B` and `C`
remain active in the recency index. -/
theorem lru_scenario_capacity_two :
    (compileIfAbsent (initCache 2) "A" (St.ok, some 1)).2.1 = 0 ∧
    (compileIfAbsent
      (compileIfAbsent (initCache 2) "A" (St.ok, some 1)).1
      "B" (St.ok, some 2)).2.1 = 1 ∧
    (compileIfAbsent
      (compileIfAbsent
        (compileIfAbsent (initCache 2) "A" (St.ok, some 1)).1
        "B" (St.ok, some 2)).1
      "C" (St.ok, some 3)).2.1 = 2 ∧
    containsVal
      (compileIfAbsent
        (compileIfAbsent
          (compileIfAbsent (initCache 2) "A" (St.ok, some 1)).1
          "B" (St.ok, some 2)).1
        "C" (St.ok, some 3)).1.byLastUse 0 = false ∧
    (findA
      (compileIfAbsent
        (compileIfAbsent
          (compileIfAbsent (initCache 2) "A" (St.ok, some 1)).1
          "B" (St.ok, some 2)).1
        "C" (St.ok, some 3)).1.store 0).isSome = true ∧
    containsVal
      (compileIfAbsent
        (compileIfAbsent
          (compileIfAbsent (initCache 2) "A" (St.ok, some 1)).1
          "B" (St.ok, some 2)).1
        "C" (St.ok, some 3)).1.byLastUse 1 = true ∧
    containsVal
      (compileIfAbsent
        (compileIfAbsent
          (compileIfAbsent (initCache 2) "A" (St.ok, some 1)).1
          "B" (St.ok, some 2)).1
        "C" (St.ok, some 3)).1.byLastUse 2 = true := by
  decide

theorem touch_uidCounter (c : Cache) (uid : Nat) :
    (touchEntry c uid).uidCounter = c.uidCounter := by
  cases hf : findA c.store uid with
  | none => rw [touchEntry_none c uid hf]
  | some e =>
    rw [touchEntry_found c uid e hf]
    split
    · rfl
    · show (evictLoopF
        (bumpRef (touchedState c uid e) uid).byLastUse.length
        (bumpRef (touchedState c uid e) uid)).uidCounter = c.uidCounter
      rw [(evictLoopF_fields _ _).2.1, (bumpRef_fields _ _).2.2.2.1]
      rfl

theorem lookupOp_uidCounter (c : Cache) (uid : Nat) :
    (lookupOp c uid).1.uidCounter = c.uidCounter := by
  unfold lookupOp
  cases hf : findA c.store uid with
  | none => rfl
  | some e =>
    dsimp only
    rw [touch_uidCounter, (bumpRef_fields _ _).2.2.2.1]

theorem releaseOp_uidCounter (c : Cache) (uid : Nat) :
    (releaseOp c uid).1.uidCounter = c.uidCounter := by
  unfold releaseOp
  cases hf : findA c.store uid with
  | none => rfl
  | some e =>
    dsimp only
    exact (discard_fields c uid).2.2.1

theorem compileIfAbsent_miss_uid (c : Cache) (k : String)
    (f : St × Option Nat) (hkey : findA c.keyMap k = none) :
    (compileIfAbsent c k f).2.1 = c.uidCounter ∧
    (compileIfAbsent c k f).1.uidCounter = c.uidCounter + 1 := by
  unfold compileIfAbsent
  rw [hkey]
  dsimp only
  constructor
  · rw [show (initializeEntry c k f).2 = c.uidCounter from by
      rw [initializeEntry_eq]]
  · rw [touch_uidCounter]
    rw [show (initializeEntry c k f).1.uidCounter = c.uidCounter + 1 from by
      rw [initializeEntry_eq]]

theorem compileIfAbsent_hit_uidCounter (c : Cache) (k : String)
    (f : St × Option Nat) (uid : Nat) (hk : findA c.keyMap k = some uid) :
    (compileIfAbsent c k f).1.uidCounter = c.uidCounter := by
  unfold compileIfAbsent
  rw [hk]
  dsimp only
  rw [touch_uidCounter, (bumpRef_fields _ _).2.2.2.1]

/-- C2: in every reachable state, the number of active (non-marked)
entries is at most `max(capacity, 1)`; the most recent use value is
always still present in the recency index (the most-recently-used active
entry is never marked for eviction even when capacity is exceeded); and
whenever any entry exists at all, at least one entry remains active. -/
theorem active_count_bounded (c : Cache) (h : Reachable c) :
    ((c.byLastUse.length : Int)) ≤ max c.maxEntries 1 ∧
    (c.byLastUse ≠ [] →
      ∃ u, ((c.useCounter - 1 : Int), u) ∈ c.byLastUse) ∧
    (c.store ≠ [] → c.byLastUse ≠ []) := by
  obtain ⟨⟨_, _, _, _, hbd, hmru⟩, hsn⟩ := reachable_inv h
  exact ⟨hbd, hmru, hsn⟩

/-- Witness for C2: with capacity 1 and three entries compiled, the
active count is within `max(1, 1) = 1` and the latest entry is still
active. -/
theorem active_count_bounded_witness :
    (((compileIfAbsent
        (compileIfAbsent
          (compileIfAbsent (initCache 1) "a" (St.ok, some 1)).1
          "b" (St.ok, some 2)).1
        "c" (St.ok, some 3)).1.byLastUse.length : Int)) ≤
      max (compileIfAbsent
        (compileIfAbsent
          (compileIfAbsent (initCache 1) "a" (St.ok, some 1)).1
          "b" (St.ok, some 2)).1
        "c" (St.ok, some 3)).1.maxEntries 1 :=
  (active_count_bounded _
    (Reachable.compile "c" (St.ok, some 3)
      (Reachable.compile "b" (St.ok, some 2)
        (Reachable.compile "a" (St.ok, some 1) (Reachable.init 1))))).1

/-- C7: every stored entry records the uid it is indexed under (the uid
is immutable), every allocated uid is below the monotone counter, uids
are pairwise distinct, a miss draws exactly the current counter value —
which no live entry carries, so it is fresh and, since the counter only
ever grows across all three operations, is never reused even after
entries are destroyed. -/
theorem uid_assigned_once_never_reused (c : Cache) (h : Reachable c) :
    (∀ p ∈ c.store, (p : Nat × Entry).2.uid = p.1) ∧
    (∀ p ∈ c.store, (p : Nat × Entry).1 < c.uidCounter) ∧
    (c.store.map Prod.fst).Nodup ∧
    (∀ k f, findA c.keyMap k = none →
      (compileIfAbsent c k f).2.1 = c.uidCounter ∧
      findA c.store c.uidCounter = none ∧
      (compileIfAbsent c k f).1.uidCounter = c.uidCounter + 1) ∧
    (∀ k f, c.uidCounter ≤ (compileIfAbsent c k f).1.uidCounter) ∧
    (∀ uid, (lookupOp c uid).1.uidCounter = c.uidCounter) ∧
    (∀ uid, (releaseOp c uid).1.uidCounter = c.uidCounter) := by
  obtain ⟨⟨_, ⟨huid, hult, hsnd, _⟩, _, _, _, _⟩, _⟩ := reachable_inv h
  refine ⟨huid, hult, hsnd, ?_, ?_, lookupOp_uidCounter c,
    releaseOp_uidCounter c⟩
  · intro k f hkey
    obtain ⟨h1, h2⟩ := compileIfAbsent_miss_uid c k f hkey
    refine ⟨h1, ?_, h2⟩
    rw [findA_eq_none]
    intro p hp
    have := hult p hp
    omega
  · intro k f
    cases hk : findA c.keyMap k with
    | none =>
      rw [(compileIfAbsent_miss_uid c k f hk).2]
      omega
    | some uid =>
      rw [compileIfAbsent_hit_uidCounter c k f uid hk]

/-- Witness for C7: after compiling `"a"` (uid 0), a miss on `"b"` draws
uid equal to the current counter value 1. -/
theorem uid_assigned_once_never_reused_witness :
    (compileIfAbsent (compileIfAbsent (initCache 2) "a" (St.ok, some 1)).1
      "b" (St.ok, some 2)).2.1 =
      (compileIfAbsent (initCache 2) "a" (St.ok, some 1)).1.uidCounter :=
  ((uid_assigned_once_never_reused _
    (Reachable.compile "a" (St.ok, some 1) (Reachable.init 2))).2.2.2.1
    "b" (St.ok, some 2) (by decide)).1

theorem bumpRef_find_self (c : Cache) (uid : Nat) (e : Entry)
    (hf : findA c.store uid = some e) :
    findA (bumpRef c uid).store uid =
      some ({ e with refcount := e.refcount + 1 }) := by
  unfold bumpRef
  rw [hf]
  dsimp only
  exact findA_updateA_self (by rw [hf]; exact fun h => by cases h)

theorem touchedState_find_self (c : Cache) (uid : Nat) (e : Entry)
    (hf : findA c.store uid = some e) :
    findA (touchedState c uid e).store uid =
      some ({ e with lastUse := c.useCounter }) := by
  show findA (updateA c.store uid ({ e with lastUse := c.useCounter }))
    uid = _
  exact findA_updateA_self (by rw [hf]; exact fun h => by cases h)

/-- C4: when the compile callback fails for an absent key `k`, the call
still returns that failure and reports that the callback ran; the entry
is fully finalized with the failure status (payload discarded) and is
retrievable by key and uid; and any later `CompileIfKeyAbsent` call for
`k`, in any state where the entry still exists (i.e. before it is
evicted), returns the same uid and the entry's cached status without
invoking its own callback. -/
theorem failure_cached (c : Cache) (k m : String) (prog : Option Nat)
    (hre : Reachable c) (hkey : findA c.keyMap k = none) :
    (compileIfAbsent c k (St.internal m, prog)).2.2.1 = St.internal m ∧
    (compileIfAbsent c k (St.internal m, prog)).2.2.2 = true ∧
    (compileIfAbsent c k (St.internal m, prog)).2.1 = c.uidCounter ∧
    (∃ e, findA (compileIfAbsent c k (St.internal m, prog)).1.store
        c.uidCounter = some e ∧ e.initialized = true ∧
      e.initStatus = St.internal m ∧ e.program = none ∧ e.key = k) ∧
    findA (compileIfAbsent c k (St.internal m, prog)).1.keyMap k =
      some c.uidCounter ∧
    (∀ (d : Cache) (g : St × Option Nat) (u : Nat) (e : Entry),
      findA d.keyMap k = some u → findA d.store u = some e →
      (compileIfAbsent d k g).2 = (u, e.initStatus, false)) := by
  obtain ⟨h0, hsn⟩ := reachable_inv hre
  obtain ⟨i0, ifind, ikey, iby, iuc, iuid⟩ :=
    initializeEntry_inv0 c k (St.internal m, prog) hkey h0
  have hvals : ∀ p ∈ c.byLastUse, p.2 < c.uidCounter := h0.1.2.2.1
  have hmark : containsVal
      (initializeEntry c k (St.internal m, prog)).1.byLastUse
      c.uidCounter = false := by
    rw [iby, containsVal_eq_false_iff]
    intro p hp
    have := hvals p hp
    omega
  have hdom : ∀ q ∈ (initializeEntry c k (St.internal m, prog)).1.byLastUse,
      q.1 < (initializeEntry c k (St.internal m, prog)).1.useCounter := by
    intro q hq
    rw [iby] at hq
    rw [iuc]
    exact (h0.1.1 q hq).2
  have hval2 : ∀ q ∈ (initializeEntry c k
      (St.internal m, prog)).1.byLastUse, q.2 ≠ c.uidCounter := by
    intro q hq
    rw [iby] at hq
    have := hvals q hq
    omega
  obtain ⟨t1, t2, t3, t4⟩ := touchedState_groups _ c.uidCounter _ ifind
    i0.1 i0.2.1 i0.2.2.1 i0.2.2.2.1
  obtain ⟨b1, b2, b3, b4⟩ := bumpRef_groups _ c.uidCounter t1 t2 t3 t4
  have hby2 : (bumpRef (touchedState
      (initializeEntry c k (St.internal m, prog)).1 c.uidCounter
      (freshEntry c k (St.internal m, prog))) c.uidCounter).byLastUse =
      ((initializeEntry c k (St.internal m, prog)).1.useCounter,
        c.uidCounter) ::
        (initializeEntry c k (St.internal m, prog)).1.byLastUse := by
    rw [(bumpRef_fields _ _).1]
    show ((initializeEntry c k (St.internal m, prog)).1.useCounter,
      c.uidCounter) :: eraseVal _ c.uidCounter = _
    rw [eraseVal_of_not_contains hmark]
  obtain ⟨rest1, hr1, hr2, hr3, hr4⟩ := evictLoopF_head _ _ _ _ _ hby2 hdom
    hval2 b2 b3
  have htouch : touchEntry (initializeEntry c k (St.internal m, prog)).1
      c.uidCounter =
      evictLoopF (bumpRef (touchedState
        (initializeEntry c k (St.internal m, prog)).1 c.uidCounter
        (freshEntry c k (St.internal m, prog)))
          c.uidCounter).byLastUse.length
        (bumpRef (touchedState
          (initializeEntry c k (St.internal m, prog)).1 c.uidCounter
          (freshEntry c k (St.internal m, prog))) c.uidCounter) := by
    rw [touchEntry_found _ _ _ ifind,
      if_neg (by rw [hmark]; exact fun h => by cases h)]
    rfl
  have hfind2 := bumpRef_find_self _ c.uidCounter _
    (touchedState_find_self _ c.uidCounter _ ifind)
  have hkey2 : findA (bumpRef (touchedState
      (initializeEntry c k (St.internal m, prog)).1 c.uidCounter
      (freshEntry c k (St.internal m, prog))) c.uidCounter).keyMap k =
      some c.uidCounter := by
    rw [(bumpRef_fields _ _).2.1]
    exact ikey
  have heq : compileIfAbsent c k (St.internal m, prog) =
      (touchEntry (initializeEntry c k (St.internal m, prog)).1
        (initializeEntry c k (St.internal m, prog)).2,
       (initializeEntry c k (St.internal m, prog)).2, St.internal m,
       true) := by
    unfold compileIfAbsent
    rw [hkey]
  rw [heq]
  refine ⟨rfl, rfl, iuid, ?_, ?_, ?_⟩
  · dsimp only
    rw [iuid, htouch, hr3, hfind2]
    exact ⟨_, rfl, rfl, rfl, rfl, rfl⟩
  · dsimp only
    rw [iuid, htouch]
    exact hr4 k hkey2
  · intro d g u e hkd hfe
    unfold compileIfAbsent
    rw [hkd]
    dsimp only
    rw [hfe]
    rfl

/-- Witness for C4: starting from the empty cache of capacity 2, a
failing compile for key `"k"` caches the failure, and the immediately
following call returns the same uid and failure without invoking its
callback. -/
theorem failure_cached_witness :
    (compileIfAbsent (initCache 2) "k"
      (St.internal "boom", some 7)).2.2.1 = St.internal "boom" ∧
    (compileIfAbsent
      (compileIfAbsent (initCache 2) "k" (St.internal "boom", some 7)).1
      "k" (St.ok, some 9)).2 = (0, St.internal "boom", false) := by
  have h := failure_cached (initCache 2) "k" "boom" (some 7)
    (Reachable.init 2) (by decide)
  refine ⟨h.1, ?_⟩
  have h2 := h.2.2.2.2.2
    (compileIfAbsent (initCache 2) "k" (St.internal "boom", some 7)).1
    (St.ok, some 9) 0
    ({ key := "k", uid := 0, initialized := true,
       initStatus := St.internal "boom", lastUse := 0, program := none,
       refcount := 2 } : Entry) (by decide) (by decide)
  exact h2

/-! ### Ghost client-reference counting

To state when an entry is destroyed we track, per uid, how many
references the callers outside the cache still hold: one per
`CompileIfKeyAbsent` call and one per successful `Lookup`, released by
`Release`.  The spec (section 7) treats releasing more often than
acquiring as caller misuse that is assumed absent, so the ghost
transition relation only fires `Release` when a client reference is
outstanding. -/

/-- One more outstanding client reference for `uid`. -/
def bumpG (g : Nat → Nat) (uid : Nat) : Nat → Nat :=
  fun u => if u = uid then g u + 1 else g u

/-- One client reference for `uid` returned. -/
def decG (g : Nat → Nat) (uid : Nat) : Nat → Nat :=
  fun u => if u = uid then g u - 1 else g u

/-- Reachability paired with the ghost count of outstanding client
references. -/
inductive ReachableG : Cache → (Nat → Nat) → Prop where
  | init (cap : Int) : ReachableG (initCache cap) (fun _ => 0)
  | compile {c : Cache} {g : Nat → Nat} (k : String) (f : St × Option Nat) :
      ReachableG c g →
      ReachableG (compileIfAbsent c k f).1
        (bumpG g (compileIfAbsent c k f).2.1)
  | lookHit {c : Cache} {g : Nat → Nat} (uid : Nat) : ReachableG c g →
      findA c.store uid ≠ none →
      ReachableG (lookupOp c uid).1 (bumpG g uid)
  | lookMiss {c : Cache} {g : Nat → Nat} (uid : Nat) : ReachableG c g →
      findA c.store uid = none →
      ReachableG (lookupOp c uid).1 g
  | release {c : Cache} {g : Nat → Nat} (uid : Nat) : ReachableG c g →
      0 < g uid →
      ReachableG (releaseOp c uid).1 (decG g uid)

theorem reachableG_reachable {c : Cache} {g : Nat → Nat}
    (h : ReachableG c g) : Reachable c := by
  induction h with
  | init cap => exact Reachable.init cap
  | compile k f _ ih => exact Reachable.compile k f ih
  | lookHit uid _ _ ih => exact Reachable.look uid ih
  | lookMiss uid _ _ ih => exact Reachable.look uid ih
  | release uid _ _ ih => exact Reachable.release uid ih

/-- The cache's own reference to an entry: one while the entry is in the
recency index, none while it is marked for eviction. -/
def bitOf (c : Cache) (uid : Nat) : Nat :=
  if containsVal c.byLastUse uid then 1 else 0

/-- Ghost invariant: every stored entry's refcount equals the
outstanding client references plus the cache's own reference; a positive
client count means the entry is stored; and the recency index has no
dangling uids. -/
def GInv (c : Cache) (g : Nat → Nat) : Prop :=
  (∀ uid e, findA c.store uid = some e →
    e.refcount = g uid + bitOf c uid) ∧
  (∀ uid, 0 < g uid → findA c.store uid ≠ none) ∧
  (∀ p ∈ c.byLastUse, findA c.store (p : Int × Nat).2 ≠ none)

theorem bitOf_eq_one {c : Cache} {uid : Nat}
    (h : containsVal c.byLastUse uid = true) : bitOf c uid = 1 := by
  unfold bitOf
  rw [h]
  rfl

theorem bitOf_eq_zero {c : Cache} {uid : Nat}
    (h : containsVal c.byLastUse uid = false) : bitOf c uid = 0 := by
  unfold bitOf
  rw [h]
  rfl

theorem markOldest_ginv (c : Cache) (g : Nat → Nat)
    (hLu : LuInv c) (hSt : StoreInv c) (hG : GInv c g) :
    GInv (markOldestEntryForEviction c) g := by
  obtain ⟨hA, hB, hC⟩ := hG
  cases hm : minKey c.byLastUse with
  | none =>
    unfold markOldestEntryForEviction
    rw [hm]
    exact ⟨hA, hB, hC⟩
  | some p =>
    have hmo : markOldestEntryForEviction c =
        discardEntryRefLocked
          { c with byLastUse := eraseKey c.byLastUse p.1 } p.2 := by
      unfold markOldestEntryForEviction
      rw [hm]
    have hpmem : p ∈ c.byLastUse := minKey_mem hm
    obtain ⟨e, hf⟩ : ∃ e, findA c.store p.2 = some e := by
      cases hfe : findA c.store p.2 with
      | none => exact absurd hfe (hC p hpmem)
      | some e => exact ⟨e, rfl⟩
    have hbit1 : bitOf c p.2 = 1 :=
      bitOf_eq_one (containsVal_eq_true_iff.mpr ⟨p, hpmem, rfl⟩)
    have hbitp : containsVal (eraseKey c.byLastUse p.1) p.2 = false :=
      containsVal_eraseKey_self_val hLu.2.2.2.2 hLu.2.1 hpmem
    have hbito : ∀ u : Nat, u ≠ p.2 →
        containsVal (eraseKey c.byLastUse p.1) u =
          containsVal c.byLastUse u :=
      fun u hu => containsVal_eraseKey_of_ne_val hLu.2.2.2.2 hpmem hu
    have hrc := hA p.2 e hf
    rw [hbit1] at hrc
    rw [hmo]
    unfold discardEntryRefLocked
    dsimp only
    rw [hf]
    dsimp only
    split
    · rename_i hone
      -- the cache held the last reference: the entry is destroyed
      have hg0 : g p.2 = 0 := by omega
      refine ⟨?_, ?_, ?_⟩
      · intro uid e' hfe'
        have hmemE := findA_mem hfe'
        have hne : uid ≠ p.2 :=
          fst_ne_of_mem_eraseKey_nodup hSt.2.2.1 hmemE
        rw [findA_eraseKey_ne hne] at hfe'
        have := hA uid e' hfe'
        unfold bitOf at this ⊢
        rw [show containsVal (eraseKey c.byLastUse p.1) uid =
          containsVal c.byLastUse uid from hbito uid hne]
        exact this
      · intro uid hgu
        have hne : uid ≠ p.2 := by
          intro he
          rw [he, hg0] at hgu
          exact absurd hgu (by omega)
        rw [findA_eraseKey_ne hne]
        exact hB uid hgu
      · intro q hq
        have hqv : q.2 ≠ p.2 :=
          containsVal_eq_false_iff.mp hbitp q hq
        rw [findA_eraseKey_ne hqv]
        exact hC q (mem_eraseKey hq)
    · rename_i hone
      refine ⟨?_, ?_, ?_⟩
      · intro uid e' hfe'
        by_cases hne : uid = p.2
        · subst hne
          rw [findA_updateA_self (by rw [hf]; exact fun h => by cases h)]
            at hfe'
          have he' : ({ e with refcount := e.refcount - 1 } : Entry) = e' :=
            Option.some.inj hfe'
          rw [← he']
          show e.refcount - 1 = g p.2 +
            (if containsVal (eraseKey c.byLastUse p.1) p.2 = true
              then 1 else 0)
          rw [hbitp]
          show e.refcount - 1 = g p.2 + 0
          omega
        · rw [findA_updateA_ne hne] at hfe'
          have := hA uid e' hfe'
          unfold bitOf at this ⊢
          rw [show containsVal (eraseKey c.byLastUse p.1) uid =
            containsVal c.byLastUse uid from hbito uid hne]
          exact this
      · intro uid hgu
        exact findA_updateA_ne_none (hB uid hgu)
      · intro q hq
        exact findA_updateA_ne_none (hC q (mem_eraseKey hq))

theorem evictLoopF_ginv (n : Nat) (c : Cache) (g : Nat → Nat)
    (hLu : LuInv c) (hSt : StoreInv c) (hMp : MapInv c) (hG : GInv c g) :
    GInv (evictLoopF n c) g := by
  induction n generalizing c with
  | zero => exact hG
  | succ n ih =>
    unfold evictLoopF
    split
    · obtain ⟨s1, s2⟩ := markOldest_SM c hSt hMp
      exact ih _ (markOldest_lu c hLu) s1 s2 (markOldest_ginv c g hLu hSt hG)
    · exact hG

theorem bitOf_congr {c c' : Cache} (h : c'.byLastUse = c.byLastUse)
    (u : Nat) : bitOf c' u = bitOf c u := by
  unfold bitOf
  rw [h]

theorem bumpRef_ginv (c : Cache) (uid : Nat) (g : Nat → Nat) (e : Entry)
    (hf : findA c.store uid = some e) (hG : GInv c g) :
    GInv (bumpRef c uid) (bumpG g uid) := by
  obtain ⟨hA, hB, hC⟩ := hG
  have hby : (bumpRef c uid).byLastUse = c.byLastUse := (bumpRef_fields _ _).1
  refine ⟨?_, ?_, ?_⟩
  · intro u e' hfe'
    rw [bitOf_congr hby]
    by_cases hu : u = uid
    · subst hu
      rw [bumpRef_find_self c u e hf] at hfe'
      have he' : ({ e with refcount := e.refcount + 1 } : Entry) = e' :=
        Option.some.inj hfe'
      rw [← he']
      show e.refcount + 1 = bumpG g u u + bitOf c u
      unfold bumpG
      rw [if_pos rfl]
      have := hA u e hf
      omega
    · rw [show findA (bumpRef c uid).store u = findA c.store u from by
        unfold bumpRef
        rw [hf]
        dsimp only
        exact findA_updateA_ne hu] at hfe'
      have := hA u e' hfe'
      unfold bumpG
      rw [if_neg hu]
      exact this
  · intro u hgu
    by_cases hu : u = uid
    · subst hu
      rw [bumpRef_find_self c u e hf]
      exact fun h => by cases h
    · rw [show findA (bumpRef c uid).store u = findA c.store u from by
        unfold bumpRef
        rw [hf]
        dsimp only
        exact findA_updateA_ne hu]
      apply hB
      unfold bumpG at hgu
      rw [if_neg hu] at hgu
      exact hgu
  · intro q hq
    rw [hby] at hq
    unfold bumpRef
    rw [hf]
    dsimp only
    exact findA_updateA_ne_none (hC q hq)

theorem touch_ginv (c : Cache) (uid : Nat) (g : Nat → Nat) (e : Entry)
    (hf : findA c.store uid = some e)
    (hLu : LuInv c) (hSt : StoreInv c) (hMp : MapInv c) (hIn : InitedInv c)
    (hG : GInv c g) : GInv (touchEntry c uid) g := by
  obtain ⟨hA, hB, hC⟩ := hG
  rw [touchEntry_found c uid e hf]
  have hbitT : ∀ u : Nat, u ≠ uid →
      containsVal (touchedState c uid e).byLastUse u =
        containsVal c.byLastUse u := by
    intro u hu
    show containsVal ((c.useCounter, uid) :: eraseVal c.byLastUse uid) u =
      containsVal c.byLastUse u
    exact containsVal_cons_eraseVal_ne hu
  have hbitU : containsVal (touchedState c uid e).byLastUse uid = true := by
    rw [containsVal_eq_true_iff]
    exact ⟨(c.useCounter, uid), List.mem_cons_self _ _, rfl⟩
  by_cases hc : containsVal c.byLastUse uid = true
  · rw [if_pos hc]
    refine ⟨?_, ?_, ?_⟩
    · intro u e' hfe'
      by_cases hu : u = uid
      · subst hu
        rw [touchedState_find_self c u e hf] at hfe'
        have he' : ({ e with lastUse := c.useCounter } : Entry) = e' :=
          Option.some.inj hfe'
        rw [← he']
        show e.refcount = g u + bitOf (touchedState c u e) u
        rw [bitOf_eq_one hbitU, ← bitOf_eq_one hc]
        exact hA u e hf
      · rw [show findA (touchedState c uid e).store u = findA c.store u
          from findA_updateA_ne hu] at hfe'
        have := hA u e' hfe'
        rw [show bitOf (touchedState c uid e) u = bitOf c u from by
          unfold bitOf
          rw [hbitT u hu]]
        exact this
    · intro u hgu
      by_cases hu : u = uid
      · subst hu
        rw [touchedState_find_self c u e hf]
        exact fun h => by cases h
      · rw [show findA (touchedState c uid e).store u = findA c.store u
          from findA_updateA_ne hu]
        exact hB u hgu
    · intro q hq
      rcases List.mem_cons.mp hq with rfl | hmem
      · rw [touchedState_find_self c uid e hf]
        exact fun h => by cases h
      · show findA (updateA c.store uid
          ({ e with lastUse := c.useCounter })) q.2 ≠ none
        exact findA_updateA_ne_none (hC q (mem_eraseVal hmem))
  · rw [if_neg hc]
    have hcf : containsVal c.byLastUse uid = false := by
      simpa using hc
    -- the state entering the eviction loop satisfies the ghost invariant
    have hfT : findA (touchedState c uid e).store uid =
        some ({ e with lastUse := c.useCounter }) :=
      touchedState_find_self c uid e hf
    have hG2 : GInv (bumpRef (touchedState c uid e) uid) g := by
      refine ⟨?_, ?_, ?_⟩
      · intro u e' hfe'
        have hby : (bumpRef (touchedState c uid e) uid).byLastUse =
            (touchedState c uid e).byLastUse := (bumpRef_fields _ _).1
        rw [bitOf_congr hby]
        by_cases hu : u = uid
        · subst hu
          rw [bumpRef_find_self _ u _ hfT] at hfe'
          have he' := Option.some.inj hfe'
          rw [← he']
          show e.refcount + 1 = g u + bitOf (touchedState c u e) u
          rw [bitOf_eq_one hbitU]
          have := hA u e hf
          rw [bitOf_eq_zero hcf] at this
          omega
        · rw [show findA (bumpRef (touchedState c uid e) uid).store u =
            findA (touchedState c uid e).store u from by
              unfold bumpRef
              rw [hfT]
              dsimp only
              exact findA_updateA_ne hu] at hfe'
          rw [show findA (touchedState c uid e).store u = findA c.store u
            from findA_updateA_ne hu] at hfe'
          have := hA u e' hfe'
          rw [show bitOf (touchedState c uid e) u = bitOf c u from by
            unfold bitOf
            rw [hbitT u hu]]
          exact this
      · intro u hgu
        by_cases hu : u = uid
        · subst hu
          rw [bumpRef_find_self _ u _ hfT]
          exact fun h => by cases h
        · rw [show findA (bumpRef (touchedState c uid e) uid).store u =
            findA (touchedState c uid e).store u from by
              unfold bumpRef
              rw [hfT]
              dsimp only
              exact findA_updateA_ne hu]
          rw [show findA (touchedState c uid e).store u = findA c.store u
            from findA_updateA_ne hu]
          exact hB u hgu
      · intro q hq
        have hby : (bumpRef (touchedState c uid e) uid).byLastUse =
            (touchedState c uid e).byLastUse := (bumpRef_fields _ _).1
        rw [hby] at hq
        rcases List.mem_cons.mp hq with rfl | hmem
        · rw [bumpRef_find_self _ uid _ hfT]
          exact fun h => by cases h
        · unfold bumpRef
          rw [hfT]
          dsimp only
          apply findA_updateA_ne_none
          show findA (updateA c.store uid
            ({ e with lastUse := c.useCounter })) q.2 ≠ none
          exact findA_updateA_ne_none (hC q (mem_eraseVal hmem))
    obtain ⟨t1, t2, t3, t4⟩ := touchedState_groups c uid e hf hLu hSt hMp hIn
    obtain ⟨b1, b2, b3, b4⟩ := bumpRef_groups _ uid t1 t2 t3 t4
    exact evictLoopF_ginv _ _ g b1 b2 b3 hG2

theorem initializeEntry_find_other (c : Cache) (k : String)
    (f : St × Option Nat) (u : Nat) (hu : u ≠ c.uidCounter) :
    findA (initializeEntry c k f).1.store u = findA c.store u := by
  rw [initializeEntry_eq]
  dsimp only
  rw [findA_updateA_ne hu, findA_cons_ne (by exact hu.symm)]

theorem discard_find_destroy (c : Cache) (uid : Nat) (e : Entry)
    (hf : findA c.store uid = some e)
    (hnd : (c.store.map Prod.fst).Nodup) (hone : e.refcount = 1)
    (u : Nat) :
    findA (discardEntryRefLocked c uid).store u =
      if u = uid then none else findA c.store u := by
  unfold discardEntryRefLocked
  rw [hf]
  dsimp only
  rw [if_pos hone]
  by_cases hu : u = uid
  · subst hu
    rw [if_pos rfl]
    exact findA_eraseKey_self_nodup hnd
  · rw [if_neg hu]
    exact findA_eraseKey_ne hu

theorem discard_find_keep (c : Cache) (uid : Nat) (e : Entry)
    (hf : findA c.store uid = some e) (hone : ¬ e.refcount = 1) (u : Nat) :
    findA (discardEntryRefLocked c uid).store u =
      if u = uid then some ({ e with refcount := e.refcount - 1 })
      else findA c.store u := by
  unfold discardEntryRefLocked
  rw [hf]
  dsimp only
  rw [if_neg hone]
  by_cases hu : u = uid
  · subst hu
    rw [if_pos rfl]
    exact findA_updateA_self (by rw [hf]; exact fun h => by cases h)
  · rw [if_neg hu]
    exact findA_updateA_ne hu

theorem discard_keyMap_self_destroy (c : Cache) (uid : Nat) (e : Entry)
    (hf : findA c.store uid = some e)
    (hknd : (c.keyMap.map Prod.fst).Nodup) (hone : e.refcount = 1) :
    findA (discardEntryRefLocked c uid).keyMap e.key = none := by
  unfold discardEntryRefLocked
  rw [hf]
  dsimp only
  rw [if_pos hone]
  exact findA_eraseKey_self_nodup hknd

theorem releaseOp_ginv (c : Cache) (uid : Nat) (g : Nat → Nat)
    (hInv : Inv c) (hG : GInv c g) (hgu : 0 < g uid) :
    GInv (releaseOp c uid).1 (decG g uid) := by
  obtain ⟨hA, hB, hC⟩ := hG
  have hsnd : (c.store.map Prod.fst).Nodup := hInv.1.2.1.2.2.1
  cases hf : findA c.store uid with
  | none => exact absurd hf (hB uid hgu)
  | some e =>
    have hrc := hA uid e hf
    have hst : (releaseOp c uid).1 = discardEntryRefLocked c uid := by
      unfold releaseOp
      rw [hf]
    have hby : (discardEntryRefLocked c uid).byLastUse = c.byLastUse :=
      (discard_fields c uid).1
    rw [hst]
    by_cases hone : e.refcount = 1
    · have hcv : containsVal c.byLastUse uid = false := by
        by_cases hcc : containsVal c.byLastUse uid = true
        · exfalso
          rw [bitOf_eq_one hcc] at hrc
          omega
        · simpa using hcc
      have hg1 : g uid = 1 := by
        rw [bitOf_eq_zero hcv] at hrc
        omega
      refine ⟨?_, ?_, ?_⟩
      · intro u e' hfe'
        rw [discard_find_destroy c uid e hf hsnd hone u] at hfe'
        rw [bitOf_congr hby u]
        by_cases hu : u = uid
        · rw [if_pos hu] at hfe'
          cases hfe'
        · rw [if_neg hu] at hfe'
          have := hA u e' hfe'
          unfold decG
          rw [if_neg hu]
          exact this
      · intro u hgu2
        rw [discard_find_destroy c uid e hf hsnd hone u]
        by_cases hu : u = uid
        · exfalso
          unfold decG at hgu2
          rw [if_pos hu] at hgu2
          rw [hu, hg1] at hgu2
          omega
        · rw [if_neg hu]
          apply hB
          unfold decG at hgu2
          rw [if_neg hu] at hgu2
          exact hgu2
      · intro q hq
        rw [hby] at hq
        rw [discard_find_destroy c uid e hf hsnd hone q.2]
        have hqu : q.2 ≠ uid := containsVal_eq_false_iff.mp hcv q hq
        rw [if_neg hqu]
        exact hC q hq
    · refine ⟨?_, ?_, ?_⟩
      · intro u e' hfe'
        rw [discard_find_keep c uid e hf hone u] at hfe'
        rw [bitOf_congr hby u]
        by_cases hu : u = uid
        · rw [if_pos hu] at hfe'
          have he' := Option.some.inj hfe'
          rw [← he', hu]
          show e.refcount - 1 = decG g uid uid + bitOf c uid
          unfold decG
          rw [if_pos rfl]
          by_cases hcc : containsVal c.byLastUse uid = true
          · rw [bitOf_eq_one hcc] at hrc ⊢
            omega
          · have hcf : containsVal c.byLastUse uid = false := by
              simpa using hcc
            rw [bitOf_eq_zero hcf] at hrc ⊢
            omega
        · rw [if_neg hu] at hfe'
          have := hA u e' hfe'
          unfold decG
          rw [if_neg hu]
          exact this
      · intro u hgu2
        rw [discard_find_keep c uid e hf hone u]
        by_cases hu : u = uid
        · rw [if_pos hu]
          exact fun h => by cases h
        · rw [if_neg hu]
          apply hB
          unfold decG at hgu2
          rw [if_neg hu] at hgu2
          exact hgu2
      · intro q hq
        rw [hby] at hq
        rw [discard_find_keep c uid e hf hone q.2]
        by_cases hu : q.2 = uid
        · rw [if_pos hu]
          exact fun h => by cases h
        · rw [if_neg hu]
          exact hC q hq

theorem compileIfAbsent_ginv (c : Cache) (k : String) (f : St × Option Nat)
    (g : Nat → Nat) (hInv : Inv c) (hG : GInv c g) :
    GInv (compileIfAbsent c k f).1
      (bumpG g (compileIfAbsent c k f).2.1) := by
  obtain ⟨h0, hsn⟩ := hInv
  obtain ⟨hLu, hSt, hMp, hIn, hbd0, hmru0⟩ := h0
  cases hk : findA c.keyMap k with
  | some uid =>
    have huid : (compileIfAbsent c k f).2.1 = uid := by
      unfold compileIfAbsent
      rw [hk]
    have hstate : (compileIfAbsent c k f).1 =
        touchEntry (bumpRef c uid) uid := by
      unfold compileIfAbsent
      rw [hk]
    rw [hstate, huid]
    obtain ⟨e, hfe, _⟩ := hMp.2.1 (k, uid) (findA_mem hk)
    have hGb := bumpRef_ginv c uid g e hfe hG
    obtain ⟨b1, b2, b3, b4⟩ := bumpRef_groups c uid hLu hSt hMp hIn
    exact touch_ginv _ uid _ _ (bumpRef_find_self c uid e hfe) b1 b2 b3 b4 hGb
  | none =>
    have huid : (compileIfAbsent c k f).2.1 = c.uidCounter :=
      (compileIfAbsent_miss_uid c k f hk).1
    have hstate : (compileIfAbsent c k f).1 =
        touchEntry (initializeEntry c k f).1 c.uidCounter := by
      unfold compileIfAbsent
      rw [hk]
      dsimp only
      rw [show (initializeEntry c k f).2 = c.uidCounter from by
        rw [initializeEntry_eq]]
    rw [hstate, huid]
    obtain ⟨i0, ifind, ikey, iby, iuc, iuid2⟩ :=
      initializeEntry_inv0 c k f hk ⟨hLu, hSt, hMp, hIn, hbd0, hmru0⟩
    have hg0 : g c.uidCounter = 0 := by
      by_contra hne
      have hpos : 0 < g c.uidCounter := Nat.pos_of_ne_zero hne
      apply hG.2.1 _ hpos
      rw [findA_eq_none]
      intro p hp
      have := hSt.2.1 p hp
      omega
    have hmarkS : containsVal (initializeEntry c k f).1.byLastUse
        c.uidCounter = false := by
      rw [iby, containsVal_eq_false_iff]
      intro p hp
      have := hLu.2.2.1 p hp
      omega
    have hGs : GInv (initializeEntry c k f).1 (bumpG g c.uidCounter) := by
      refine ⟨?_, ?_, ?_⟩
      · intro u e' hfe'
        by_cases hu : u = c.uidCounter
        · subst hu
          rw [ifind] at hfe'
          have he' := Option.some.inj hfe'
          rw [← he']
          have hb : bumpG g c.uidCounter c.uidCounter = 1 := by
            unfold bumpG
            simp [hg0]
          show (freshEntry c k f).refcount =
            bumpG g c.uidCounter c.uidCounter +
              bitOf (initializeEntry c k f).1 c.uidCounter
          rw [hb, bitOf_eq_zero hmarkS]
          rfl
        · rw [initializeEntry_find_other c k f u hu] at hfe'
          have := hG.1 u e' hfe'
          rw [bitOf_congr iby u]
          unfold bumpG
          rw [if_neg hu]
          exact this
      · intro u hgu
        by_cases hu : u = c.uidCounter
        · subst hu
          rw [ifind]
          exact fun h => by cases h
        · rw [initializeEntry_find_other c k f u hu]
          apply hG.2.1
          unfold bumpG at hgu
          rw [if_neg hu] at hgu
          exact hgu
      · intro q hq
        rw [iby] at hq
        have hqu : q.2 ≠ c.uidCounter := by
          have := hLu.2.2.1 q hq
          omega
        rw [initializeEntry_find_other c k f q.2 hqu]
        exact hG.2.2 q hq
    exact touch_ginv _ c.uidCounter _ _ ifind i0.1 i0.2.1 i0.2.2.1
      i0.2.2.2.1 hGs

theorem lookupOp_ginv_hit (c : Cache) (uid : Nat) (g : Nat → Nat)
    (e : Entry) (hf : findA c.store uid = some e)
    (hInv : Inv c) (hG : GInv c g) :
    GInv (lookupOp c uid).1 (bumpG g uid) := by
  obtain ⟨⟨hLu, hSt, hMp, hIn, _, _⟩, _⟩ := hInv
  have hstate : (lookupOp c uid).1 = touchEntry (bumpRef c uid) uid := by
    unfold lookupOp
    rw [hf]
  rw [hstate]
  have hGb := bumpRef_ginv c uid g e hf hG
  obtain ⟨b1, b2, b3, b4⟩ := bumpRef_groups c uid hLu hSt hMp hIn
  exact touch_ginv _ uid _ _ (bumpRef_find_self c uid e hf) b1 b2 b3 b4 hGb

/-- Every ghost-reachable configuration satisfies the ghost invariant. -/
theorem reachableG_ginv {c : Cache} {g : Nat → Nat}
    (h : ReachableG c g) : GInv c g := by
  induction h with
  | init cap =>
    refine ⟨?_, ?_, ?_⟩
    · intro u e hfe
      cases hfe
    · intro u hgu
      simp at hgu
    · intro q hq
      simp [initCache] at hq
  | compile k f hprev ih =>
    exact compileIfAbsent_ginv _ k f _
      (reachable_inv (reachableG_reachable hprev)) ih
  | lookHit uid hprev hne ih =>
    cases hfe : findA _ uid with
    | none => exact absurd hfe hne
    | some e =>
      exact lookupOp_ginv_hit _ uid _ e hfe
        (reachable_inv (reachableG_reachable hprev)) ih
  | lookMiss uid hprev hne ih =>
    rw [show (lookupOp _ uid).1 = _ from by unfold lookupOp; rw [hne]]
    exact ih
  | release uid hprev hgu ih =>
    exact releaseOp_ginv _ uid _
      (reachable_inv (reachableG_reachable hprev)) ih hgu

/-- C3: every entry present in the identity maps has a strictly positive
refcount; under the spec's usage discipline (Release is only called by a
holder of an outstanding reference), a Release destroys the entry —
removing it from both identity maps and freeing the payload — exactly
when its refcount is 1 (reaching zero by this Release) and it is marked
for eviction; and when the entry is still active (present in the recency
index), releasing a reference never removes it: it stays cached and
retrievable. -/
theorem entry_destroyed_iff_refzero_and_marked (c : Cache) (g : Nat → Nat)
    (h : ReachableG c g) :
    (∀ uid e, findA c.store uid = some e → 1 ≤ e.refcount) ∧
    (∀ uid e, findA c.store uid = some e → 0 < g uid →
      ((findA (releaseOp c uid).1.store uid = none) ↔
        (e.refcount = 1 ∧ containsVal c.byLastUse uid = false)) ∧
      (e.refcount = 1 →
        findA (releaseOp c uid).1.keyMap e.key = none) ∧
      (containsVal c.byLastUse uid = true →
        findA (releaseOp c uid).1.store uid ≠ none)) := by
  have hInv := reachable_inv (reachableG_reachable h)
  have hG := reachableG_ginv h
  have hrcpos := hInv.1.2.1.2.2.2
  refine ⟨fun uid e hf => hrcpos (uid, e) (findA_mem hf), ?_⟩
  intro uid e hf hgu
  have hrel : (releaseOp c uid).1 = discardEntryRefLocked c uid := by
    unfold releaseOp
    rw [hf]
  have hsnd : (c.store.map Prod.fst).Nodup := hInv.1.2.1.2.2.1
  have hknd : (c.keyMap.map Prod.fst).Nodup := hInv.1.2.2.1.1
  have hrc := hG.1 uid e hf
  rw [hrel]
  by_cases hone : e.refcount = 1
  · have hcv : containsVal c.byLastUse uid = false := by
      by_cases hcc : containsVal c.byLastUse uid = true
      · exfalso
        rw [bitOf_eq_one hcc] at hrc
        omega
      · simpa using hcc
    refine ⟨?_, ?_, ?_⟩
    · rw [discard_find_destroy c uid e hf hsnd hone uid, if_pos rfl]
      constructor
      · intro _
        exact ⟨hone, hcv⟩
      · intro _
        rfl
    · intro _
      exact discard_keyMap_self_destroy c uid e hf hknd hone
    · intro hact
      rw [hact] at hcv
      cases hcv
  · refine ⟨?_, ?_, ?_⟩
    · rw [discard_find_keep c uid e hf hone uid, if_pos rfl]
      constructor
      · intro hcontra
        cases hcontra
      · intro ⟨h1, _⟩
        exact absurd h1 hone
    · intro h1
      exact absurd h1 hone
    · intro _
      rw [discard_find_keep c uid e hf hone uid, if_pos rfl]
      exact fun hh => by cases hh

/-- Witness for C3: capacity 1, keys `"a"` then `"b"`; entry 0 is marked
for eviction with refcount 1 and one outstanding client reference, so
releasing it destroys it (its uid is no longer found). -/
theorem entry_destroyed_iff_refzero_and_marked_witness :
    findA ((releaseOp
      (compileIfAbsent (compileIfAbsent (initCache 1) "a" (St.ok, some 1)).1
        "b" (St.ok, some 2)).1 0).1.store) 0 = none := by
  have h := entry_destroyed_iff_refzero_and_marked
    (compileIfAbsent (compileIfAbsent (initCache 1) "a" (St.ok, some 1)).1
      "b" (St.ok, some 2)).1
    (bumpG (bumpG (fun _ => 0)
        (compileIfAbsent (initCache 1) "a" (St.ok, some 1)).2.1)
      (compileIfAbsent (compileIfAbsent (initCache 1) "a"
        (St.ok, some 1)).1 "b" (St.ok, some 2)).2.1)
    (ReachableG.compile "b" (St.ok, some 2)
      (ReachableG.compile "a" (St.ok, some 1) (ReachableG.init 1)))
  exact ((h.2 0
    ({ key := "a", uid := 0, initialized := true, initStatus := St.ok,
       lastUse := 0, program := some 1, refcount := 1 } : Entry)
    (by decide) (by decide)).1).mpr (by decide)

/-! ### Interleaving model for concurrent CompileIfKeyAbsent

The spec (section 5) prescribes one mutex serializing all cache state,
released only around the compile callback, with same-key callers
condition-waiting on the entry's `initialized` flag.  Execution is
therefore a sequence of atomic critical sections.  The relation below is
modelled from the spec: it interleaves N threads all calling
`CompileIfKeyAbsent(k, f)` on one shared cache, one critical section per
step. -/

/-- The control state of one thread during its `CompileIfKeyAbsent(k, f)`
call. -/
inductive TSt where
  | start : TSt
  | waiting : Nat → TSt
  | compiling : Nat → TSt
  | done : Nat → St → Bool → TSt
deriving DecidableEq, Repr

/-- Whether a thread has returned from its call. -/
def TSt.isDone : TSt → Bool
  | .done _ _ _ => true
  | _ => false

/-- Whether a thread is the one that ran (or is running) the compile
callback. -/
def isCreator : TSt → Bool
  | .compiling _ => true
  | .done _ _ true => true
  | _ => false

/-- A configuration: the shared cache plus every thread's control
state. -/
structure Cfg where
  cache : Cache
  threads : List TSt
deriving DecidableEq, Repr

/-- Modelled from the spec: one critical section of
`CompileIfKeyAbsent(k, f)` by thread `i` (spec sections 4.1 and 5,
missing `xrt_compilation_cache.cc`).  A thread that misses creates the
uninitialized entry and leaves the lock to compile; a thread that hits an
initialized entry takes its reference, bumps recency and returns; a
thread that hits an uninitialized entry takes its reference and
condition-waits; a waiter wakes only once the entry is initialized, bumps
recency and returns the cached status; the creating thread finalizes the
entry with the callback's result, admits it to the recency index and
returns. -/
inductive Step (k : String) (f : St × Option Nat) : Cfg → Cfg → Prop where
  | enterMiss (C : Cfg) (i : Nat) (hi : i < C.threads.length)
      (hs : C.threads.get ⟨i, hi⟩ = TSt.start)
      (hk : findA C.cache.keyMap k = none) :
      Step k f C ⟨(createEntry C.cache k).1,
        C.threads.set i (TSt.compiling (createEntry C.cache k).2)⟩
  | enterHitInit (C : Cfg) (i uid : Nat) (e : Entry)
      (hi : i < C.threads.length)
      (hs : C.threads.get ⟨i, hi⟩ = TSt.start)
      (hk : findA C.cache.keyMap k = some uid)
      (he : findA C.cache.store uid = some e)
      (hinit : e.initialized = true) :
      Step k f C ⟨touchEntry (bumpRef C.cache uid) uid,
        C.threads.set i (TSt.done uid e.initStatus false)⟩
  | enterHitUninit (C : Cfg) (i uid : Nat) (e : Entry)
      (hi : i < C.threads.length)
      (hs : C.threads.get ⟨i, hi⟩ = TSt.start)
      (hk : findA C.cache.keyMap k = some uid)
      (he : findA C.cache.store uid = some e)
      (hinit : e.initialized = false) :
      Step k f C ⟨bumpRef C.cache uid, C.threads.set i (TSt.waiting uid)⟩
  | wake (C : Cfg) (i uid : Nat) (e : Entry)
      (hi : i < C.threads.length)
      (hs : C.threads.get ⟨i, hi⟩ = TSt.waiting uid)
      (he : findA C.cache.store uid = some e)
      (hinit : e.initialized = true) :
      Step k f C ⟨touchEntry C.cache uid,
        C.threads.set i (TSt.done uid e.initStatus false)⟩
  | finish (C : Cfg) (i uid : Nat)
      (hi : i < C.threads.length)
      (hs : C.threads.get ⟨i, hi⟩ = TSt.compiling uid) :
      Step k f C ⟨touchEntry (finalizeEntry C.cache uid f.1 f.2) uid,
        C.threads.set i (TSt.done uid f.1 true)⟩

theorem eraseVal_all [DecidableEq β] {α : Type} {l : List (α × β)} {v : β}
    (h : ∀ p ∈ l, (p : α × β).2 = v) : eraseVal l v = [] := by
  unfold eraseVal
  rw [List.filter_eq_nil]
  intro p hp
  simp [h p hp]

theorem evictLoopF_id (n : Nat) (c : Cache)
    (h : ¬ (c.maxEntries < (c.byLastUse.length : Int) ∧
      1 < c.byLastUse.length)) : evictLoopF n c = c := by
  cases n with
  | zero => rfl
  | succ n =>
    unfold evictLoopF
    rw [if_neg h]

/-- With a single entry in the cache (every recency-index slot bound to
`uid`), a recency bump rebuilds a one-element index, changes no other
field but the entry's `lastUse`/`refcount`, and the eviction loop does
nothing. -/
theorem touch_single (c : Cache) (uid : Nat) (e : Entry)
    (hf : findA c.store uid = some e)
    (hvals : ∀ p ∈ c.byLastUse, (p : Int × Nat).2 = uid) :
    (touchEntry c uid).byLastUse = [(c.useCounter, uid)] ∧
    (touchEntry c uid).keyMap = c.keyMap ∧
    (∃ e', findA (touchEntry c uid).store uid = some e' ∧
      e'.initialized = e.initialized ∧ e'.initStatus = e.initStatus) := by
  have hev : eraseVal c.byLastUse uid = [] := eraseVal_all hvals
  have hTby : (touchedState c uid e).byLastUse = [(c.useCounter, uid)] := by
    show (c.useCounter, uid) :: eraseVal c.byLastUse uid = _
    rw [hev]
  rw [touchEntry_found c uid e hf]
  by_cases hc : containsVal c.byLastUse uid = true
  · rw [if_pos hc]
    exact ⟨hTby, rfl, ⟨_, touchedState_find_self c uid e hf, rfl, rfl⟩⟩
  · rw [if_neg hc]
    have hloop : lookupEntryMarkedForEviction (touchedState c uid e) uid =
        bumpRef (touchedState c uid e) uid := by
      show evictLoopF _ (bumpRef (touchedState c uid e) uid) = _
      apply evictLoopF_id
      rw [(bumpRef_fields _ _).1, hTby]
      intro hcon
      exact absurd hcon.2 (by simp)
    rw [hloop]
    refine ⟨by rw [(bumpRef_fields _ _).1, hTby],
      by rw [(bumpRef_fields _ _).2.1]; rfl,
      ⟨_, bumpRef_find_self _ uid _ (touchedState_find_self c uid e hf),
        rfl, rfl⟩⟩

theorem finalize_find_self (c : Cache) (uid : Nat) (e : Entry)
    (st : St) (prog : Option Nat) (hf : findA c.store uid = some e) :
    findA (finalizeEntry c uid st prog).store uid =
      some { e with
             initialized := true
             initStatus := st
             program := if st.isOk then prog else none } := by
  unfold finalizeEntry
  rw [hf]
  dsimp only
  exact findA_updateA_self (by rw [hf]; exact fun h => by cases h)

theorem finalize_fields (c : Cache) (uid : Nat) (st : St)
    (prog : Option Nat) :
    (finalizeEntry c uid st prog).byLastUse = c.byLastUse ∧
    (finalizeEntry c uid st prog).keyMap = c.keyMap ∧
    (finalizeEntry c uid st prog).useCounter = c.useCounter := by
  unfold finalizeEntry
  cases findA c.store uid with
  | none => exact ⟨rfl, rfl, rfl⟩
  | some e => exact ⟨rfl, rfl, rfl⟩

theorem getSet_self {α : Type} (l : List α) (i : Nat) (a : α)
    (h : i < (l.set i a).length) : (l.set i a).get ⟨i, h⟩ = a := by
  simp

theorem getSet_ne {α : Type} (l : List α) (i j : Nat) (a : α) (hne : i ≠ j)
    (h : j < (l.set i a).length) :
    (l.set i a).get ⟨j, h⟩ = l.get ⟨j, by simpa using h⟩ := by
  rw [List.get_eq_getElem, List.get_eq_getElem]
  exact List.getElem_set_ne hne _

/-- Invariant of the interleaved execution of `CompileIfKeyAbsent(k, f)`
by several threads over an initially empty cache: before the first miss
the cache is untouched and every thread is at its call entry; afterwards
the single entry for `k` has uid 0, the recency index only ever
references uid 0, exactly one thread is the creator (running or having
run the callback), the creator still being inside the callback means the
entry is uninitialized, a finalized entry carries the callback's status,
and every thread is at the entry point, waiting on uid 0, compiling, or
done with uid 0 and the callback's status. -/
def CInv (k : String) (f : St × Option Nat) (C : Cfg) : Prop :=
  (findA C.cache.keyMap k = none →
    C.cache.keyMap = [] ∧ C.cache.store = [] ∧ C.cache.byLastUse = [] ∧
    C.cache.uidCounter = 0 ∧
    ∀ j (hj : j < C.threads.length), C.threads.get ⟨j, hj⟩ = TSt.start) ∧
  (∀ uid0, findA C.cache.keyMap k = some uid0 → uid0 = 0 ∧
    C.cache.keyMap = [(k, 0)] ∧
    (∀ p ∈ C.cache.byLastUse, (p : Int × Nat).2 = 0) ∧
    (∃ e, findA C.cache.store 0 = some e ∧
      (e.initialized = true → e.initStatus = f.1) ∧
      (∃ ic, ∃ hic : ic < C.threads.length,
        isCreator (C.threads.get ⟨ic, hic⟩) = true ∧
        (∀ j (hj : j < C.threads.length),
          isCreator (C.threads.get ⟨j, hj⟩) = true → j = ic) ∧
        (C.threads.get ⟨ic, hic⟩ = TSt.compiling 0 →
          e.initialized = false)) ∧
      (∀ j (hj : j < C.threads.length),
        C.threads.get ⟨j, hj⟩ = TSt.start ∨
        C.threads.get ⟨j, hj⟩ = TSt.waiting 0 ∨
        C.threads.get ⟨j, hj⟩ = TSt.compiling 0 ∨
        ∃ b, C.threads.get ⟨j, hj⟩ = TSt.done 0 f.1 b)))

theorem cache_facts_touch (c : Cache) (e0 : Entry) (k : String)
    (hkm : c.keyMap = [(k, 0)])
    (hvals : ∀ p ∈ c.byLastUse, (p : Int × Nat).2 = 0)
    (hfe0 : findA c.store 0 = some e0) :
    ∃ e2, (touchEntry c 0).keyMap = [(k, 0)] ∧
      (∀ p ∈ (touchEntry c 0).byLastUse, (p : Int × Nat).2 = 0) ∧
      findA (touchEntry c 0).store 0 = some e2 ∧
      e2.initialized = e0.initialized ∧ e2.initStatus = e0.initStatus := by
  obtain ⟨h1, h2, e2, h3, h4, h5⟩ := touch_single c 0 e0 hfe0 hvals
  refine ⟨e2, by rw [h2, hkm], ?_, h3, h4, h5⟩
  rw [h1]
  intro p hp
  rcases List.mem_cons.mp hp with rfl | hh
  · rfl
  · simp at hh

theorem cache_facts_bump (c : Cache) (e0 : Entry) (k : String)
    (hkm : c.keyMap = [(k, 0)])
    (hvals : ∀ p ∈ c.byLastUse, (p : Int × Nat).2 = 0)
    (hfe0 : findA c.store 0 = some e0) :
    ∃ e2, (bumpRef c 0).keyMap = [(k, 0)] ∧
      (∀ p ∈ (bumpRef c 0).byLastUse, (p : Int × Nat).2 = 0) ∧
      findA (bumpRef c 0).store 0 = some e2 ∧
      e2.initialized = e0.initialized ∧ e2.initStatus = e0.initStatus := by
  refine ⟨{ e0 with refcount := e0.refcount + 1 },
    by rw [(bumpRef_fields _ _).2.1, hkm],
    by rw [(bumpRef_fields _ _).1]; exact hvals,
    bumpRef_find_self c 0 e0 hfe0, rfl, rfl⟩

theorem creator_after_set_other (threads : List TSt) (ic i : Nat)
    (v : TSt) (hic : ic < threads.length) (hi : i < threads.length)
    (hcr : isCreator (threads.get ⟨ic, hic⟩) = true)
    (huniq : ∀ j (hj : j < threads.length),
      isCreator (threads.get ⟨j, hj⟩) = true → j = ic)
    (hold : isCreator (threads.get ⟨i, hi⟩) = false)
    (hv : isCreator v = false) :
    ∃ hic2 : ic < (threads.set i v).length,
      isCreator ((threads.set i v).get ⟨ic, hic2⟩) = true ∧
      (∀ j (hj : j < (threads.set i v).length),
        isCreator ((threads.set i v).get ⟨j, hj⟩) = true → j = ic) ∧
      (threads.set i v).get ⟨ic, hic2⟩ = threads.get ⟨ic, hic⟩ := by
  have hine : i ≠ ic := by
    intro he
    subst he
    rw [hold] at hcr
    cases hcr
  have hic2 : ic < (threads.set i v).length := by
    rw [List.length_set]
    exact hic
  have hgic : (threads.set i v).get ⟨ic, hic2⟩ = threads.get ⟨ic, hic⟩ := by
    rw [getSet_ne threads i ic v hine hic2]
  refine ⟨hic2, by rw [hgic]; exact hcr, ?_, hgic⟩
  intro j hj hcj
  by_cases hji : j = i
  · subst hji
    rw [getSet_self] at hcj
    rw [hv] at hcj
    cases hcj
  · rw [getSet_ne threads i j v (fun hh => hji hh.symm) hj] at hcj
    exact huniq j (by simpa using hj) hcj

/-- One interleaved step preserves the execution invariant. -/
theorem step_preserves_CInv {k : String} {f : St × Option Nat} {C C' : Cfg}
    (hst : Step k f C C') (hinv : CInv k f C) : CInv k f C' := by
  obtain ⟨hnone, hsome⟩ := hinv
  cases hst with
  | enterMiss i hi hs hk =>
    obtain ⟨hkm, hstore, hby, huidc, hall⟩ := hnone hk
    have hkm' : (createEntry C.cache k).1.keyMap = [(k, 0)] := by
      show (k, C.cache.uidCounter) :: C.cache.keyMap = _
      rw [huidc, hkm]
    have hfind' : findA (createEntry C.cache k).1.store 0 =
        some (blankEntry C.cache k) := by
      show findA ((C.cache.uidCounter, blankEntry C.cache k) ::
        C.cache.store) 0 = _
      rw [huidc]
      exact findA_cons_self
    have huid2 : (createEntry C.cache k).2 = 0 := huidc
    constructor
    · intro hn
      exfalso
      rw [show (Cfg.mk (createEntry C.cache k).1
        (C.threads.set i (TSt.compiling (createEntry C.cache k).2))).cache =
          (createEntry C.cache k).1 from rfl, hkm'] at hn
      rw [show findA [(k, 0)] k = some 0 from findA_cons_self] at hn
      cases hn
    · intro uid0 hk0
      rw [show (Cfg.mk (createEntry C.cache k).1
        (C.threads.set i (TSt.compiling (createEntry C.cache k).2))).cache =
          (createEntry C.cache k).1 from rfl, hkm'] at hk0
      rw [show findA [(k, 0)] k = some 0 from findA_cons_self] at hk0
      have huid0 : uid0 = 0 := (Option.some.inj hk0).symm
      subst huid0
      refine ⟨rfl, hkm', ?_, ?_⟩
      · intro p hp
        rw [show (createEntry C.cache k).1.byLastUse = C.cache.byLastUse
          from rfl, hby] at hp
        simp at hp
      · refine ⟨blankEntry C.cache k, hfind', ?_, ?_, ?_⟩
        · intro h
          exact absurd h (by simp [blankEntry])
        · refine ⟨i, by rw [List.length_set]; exact hi, ?_, ?_, ?_⟩
          · rw [getSet_self]
            rfl
          · intro j hj hcj
            by_cases hji : j = i
            · exact hji
            · rw [getSet_ne C.threads i j _ (fun hh => hji hh.symm) hj]
                at hcj
              rw [hall j (by simpa using hj)] at hcj
              cases hcj
          · intro _
            rfl
        · intro j hj
          by_cases hji : j = i
          · subst hji
            rw [getSet_self, huid2]
            exact Or.inr (Or.inr (Or.inl rfl))
          · rw [getSet_ne C.threads i j _ (fun hh => hji hh.symm) hj]
            exact Or.inl (hall j (by simpa using hj))
  | enterHitInit i uid e hi hs hk he hinit =>
    obtain ⟨huid0, hkm, hvals, e0, hfe0, hst0,
      ⟨ic, hic, hcr, huniq, hcompimp⟩, hshape⟩ := hsome uid hk
    subst huid0
    have hee0 : e = e0 := Option.some.inj (he.symm.trans hfe0)
    obtain ⟨e1, hb1, hb2, hb3, hb4, hb5⟩ :=
      cache_facts_bump C.cache e0 k hkm hvals hfe0
    obtain ⟨e2, ht1, ht2, ht3, ht4, ht5⟩ :=
      cache_facts_touch (bumpRef C.cache 0) e1 k hb1 hb2 hb3
    have hstf : e.initStatus = f.1 := by
      rw [hee0]
      exact hst0 (by rw [← hee0]; exact hinit)
    constructor
    · intro hn
      exfalso
      rw [show (Cfg.mk (touchEntry (bumpRef C.cache 0) 0)
        (C.threads.set i (TSt.done 0 e.initStatus false))).cache =
          touchEntry (bumpRef C.cache 0) 0 from rfl, ht1] at hn
      rw [show findA [(k, 0)] k = some 0 from findA_cons_self] at hn
      cases hn
    · intro uid0 hk0
      rw [show (Cfg.mk (touchEntry (bumpRef C.cache 0) 0)
        (C.threads.set i (TSt.done 0 e.initStatus false))).cache =
          touchEntry (bumpRef C.cache 0) 0 from rfl, ht1] at hk0
      rw [show findA [(k, 0)] k = some 0 from findA_cons_self] at hk0
      have huid0 : uid0 = 0 := (Option.some.inj hk0).symm
      subst huid0
      refine ⟨rfl, ht1, ht2, e2, ht3, ?_, ?_, ?_⟩
      · intro _
        rw [ht5, hb5, ← hee0, hstf]
      · have hold : isCreator (C.threads.get ⟨i, hi⟩) = false := by
          rw [hs]
          rfl
        obtain ⟨hic2, hc1, hc2, hc3⟩ := creator_after_set_other C.threads
          ic i (TSt.done 0 e.initStatus false) hic hi hcr huniq hold rfl
        refine ⟨ic, hic2, hc1, hc2, ?_⟩
        intro hcomp
        rw [hc3] at hcomp
        rw [ht4, hb4]
        exact hcompimp hcomp
      · intro j hj
        by_cases hji : j = i
        · subst hji
          rw [getSet_self, hstf]
          exact Or.inr (Or.inr (Or.inr ⟨false, rfl⟩))
        · rw [getSet_ne C.threads i j _ (fun hh => hji hh.symm) hj]
          exact hshape j (by simpa using hj)
  | enterHitUninit i uid e hi hs hk he hinit =>
    obtain ⟨huid0, hkm, hvals, e0, hfe0, hst0,
      ⟨ic, hic, hcr, huniq, hcompimp⟩, hshape⟩ := hsome uid hk
    subst huid0
    have hee0 : e = e0 := Option.some.inj (he.symm.trans hfe0)
    obtain ⟨e1, hb1, hb2, hb3, hb4, hb5⟩ :=
      cache_facts_bump C.cache e0 k hkm hvals hfe0
    constructor
    · intro hn
      exfalso
      rw [show (Cfg.mk (bumpRef C.cache 0)
        (C.threads.set i (TSt.waiting 0))).cache =
          bumpRef C.cache 0 from rfl, hb1] at hn
      rw [show findA [(k, 0)] k = some 0 from findA_cons_self] at hn
      cases hn
    · intro uid0 hk0
      rw [show (Cfg.mk (bumpRef C.cache 0)
        (C.threads.set i (TSt.waiting 0))).cache =
          bumpRef C.cache 0 from rfl, hb1] at hk0
      rw [show findA [(k, 0)] k = some 0 from findA_cons_self] at hk0
      have huid0 : uid0 = 0 := (Option.some.inj hk0).symm
      subst huid0
      refine ⟨rfl, hb1, hb2, e1, hb3, ?_, ?_, ?_⟩
      · intro h1
        rw [hb5]
        apply hst0
        rw [← hb4]
        exact h1
      · have hold : isCreator (C.threads.get ⟨i, hi⟩) = false := by
          rw [hs]
          rfl
        obtain ⟨hic2, hc1, hc2, hc3⟩ := creator_after_set_other C.threads
          ic i (TSt.waiting 0) hic hi hcr huniq hold rfl
        refine ⟨ic, hic2, hc1, hc2, ?_⟩
        intro hcomp
        rw [hc3] at hcomp
        rw [hb4]
        exact hcompimp hcomp
      · intro j hj
        by_cases hji : j = i
        · subst hji
          rw [getSet_self]
          exact Or.inr (Or.inl rfl)
        · rw [getSet_ne C.threads i j _ (fun hh => hji hh.symm) hj]
          exact hshape j (by simpa using hj)
  | wake i uid e hi hs he hinit =>
    cases hkc : findA C.cache.keyMap k with
    | none =>
      exfalso
      obtain ⟨_, _, _, _, hall⟩ := hnone hkc
      rw [hall i hi] at hs
      cases hs
    | some uidk =>
      obtain ⟨huid0, hkm, hvals, e0, hfe0, hst0,
        ⟨ic, hic, hcr, huniq, hcompimp⟩, hshape⟩ := hsome uidk hkc
      subst huid0
      have hsh := hshape i hi
      rw [hs] at hsh
      have huid : uid = 0 := by
        rcases hsh with h | h | h | ⟨b, h⟩
        · cases h
        · exact TSt.waiting.inj h
        · cases h
        · cases h
      subst huid
      have hee0 : e = e0 := Option.some.inj (he.symm.trans hfe0)
      obtain ⟨e2, ht1, ht2, ht3, ht4, ht5⟩ :=
        cache_facts_touch C.cache e0 k hkm hvals hfe0
      have hstf : e.initStatus = f.1 := by
        rw [hee0]
        exact hst0 (by rw [← hee0]; exact hinit)
      constructor
      · intro hn
        exfalso
        rw [show (Cfg.mk (touchEntry C.cache 0)
          (C.threads.set i (TSt.done 0 e.initStatus false))).cache =
            touchEntry C.cache 0 from rfl, ht1] at hn
        rw [show findA [(k, 0)] k = some 0 from findA_cons_self] at hn
        cases hn
      · intro uid0 hk0
        rw [show (Cfg.mk (touchEntry C.cache 0)
          (C.threads.set i (TSt.done 0 e.initStatus false))).cache =
            touchEntry C.cache 0 from rfl, ht1] at hk0
        rw [show findA [(k, 0)] k = some 0 from findA_cons_self] at hk0
        have huid0 : uid0 = 0 := (Option.some.inj hk0).symm
        subst huid0
        refine ⟨rfl, ht1, ht2, e2, ht3, ?_, ?_, ?_⟩
        · intro _
          rw [ht5, ← hee0, hstf]
        · have hold : isCreator (C.threads.get ⟨i, hi⟩) = false := by
            rw [hs]
            rfl
          obtain ⟨hic2, hc1, hc2, hc3⟩ := creator_after_set_other C.threads
            ic i (TSt.done 0 e.initStatus false) hic hi hcr huniq hold rfl
          refine ⟨ic, hic2, hc1, hc2, ?_⟩
          intro hcomp
          rw [hc3] at hcomp
          rw [ht4]
          exact hcompimp hcomp
        · intro j hj
          by_cases hji : j = i
          · subst hji
            rw [getSet_self, hstf]
            exact Or.inr (Or.inr (Or.inr ⟨false, rfl⟩))
          · rw [getSet_ne C.threads i j _ (fun hh => hji hh.symm) hj]
            exact hshape j (by simpa using hj)
  | finish i uid hi hs =>
    cases hkc : findA C.cache.keyMap k with
    | none =>
      exfalso
      obtain ⟨_, _, _, _, hall⟩ := hnone hkc
      rw [hall i hi] at hs
      cases hs
    | some uidk =>
      obtain ⟨huid0, hkm, hvals, e0, hfe0, hst0,
        ⟨ic, hic, hcr, huniq, hcompimp⟩, hshape⟩ := hsome uidk hkc
      subst huid0
      have hsh := hshape i hi
      rw [hs] at hsh
      have huid : uid = 0 := by
        rcases hsh with h | h | h | ⟨b, h⟩
        · cases h
        · cases h
        · exact TSt.compiling.inj h
        · cases h
      subst huid
      have hffix := finalize_find_self C.cache 0 e0 f.1 f.2 hfe0
      have hfkm : (finalizeEntry C.cache 0 f.1 f.2).keyMap = [(k, 0)] := by
        rw [(finalize_fields C.cache 0 f.1 f.2).2.1, hkm]
      have hfvals : ∀ p ∈ (finalizeEntry C.cache 0 f.1 f.2).byLastUse,
          (p : Int × Nat).2 = 0 := by
        rw [(finalize_fields C.cache 0 f.1 f.2).1]
        exact hvals
      obtain ⟨e2, ht1, ht2, ht3, ht4, ht5⟩ :=
        cache_facts_touch (finalizeEntry C.cache 0 f.1 f.2) _ k hfkm hfvals
          hffix
      constructor
      · intro hn
        exfalso
        rw [show (Cfg.mk (touchEntry (finalizeEntry C.cache 0 f.1 f.2) 0)
          (C.threads.set i (TSt.done 0 f.1 true))).cache =
            touchEntry (finalizeEntry C.cache 0 f.1 f.2) 0 from rfl, ht1]
          at hn
        rw [show findA [(k, 0)] k = some 0 from findA_cons_self] at hn
        cases hn
      · intro uid0 hk0
        rw [show (Cfg.mk (touchEntry (finalizeEntry C.cache 0 f.1 f.2) 0)
          (C.threads.set i (TSt.done 0 f.1 true))).cache =
            touchEntry (finalizeEntry C.cache 0 f.1 f.2) 0 from rfl, ht1]
          at hk0
        rw [show findA [(k, 0)] k = some 0 from findA_cons_self] at hk0
        have huid0 : uid0 = 0 := (Option.some.inj hk0).symm
        subst huid0
        refine ⟨rfl, ht1, ht2, e2, ht3, ?_, ?_, ?_⟩
        · intro _
          rw [ht5]
        · refine ⟨i, by rw [List.length_set]; exact hi, ?_, ?_, ?_⟩
          · rw [getSet_self]
            rfl
          · intro j hj hcj
            by_cases hji : j = i
            · exact hji
            · rw [getSet_ne C.threads i j _ (fun hh => hji hh.symm) hj]
                at hcj
              have := huniq j (by simpa using hj) hcj
              have hieq : i = ic := huniq i hi (by rw [hs]; rfl)
              rw [this, ← hieq]
          · intro hcomp
            rw [getSet_self] at hcomp
            cases hcomp
        · intro j hj
          by_cases hji : j = i
          · subst hji
            rw [getSet_self]
            exact Or.inr (Or.inr (Or.inr ⟨true, rfl⟩))
          · rw [getSet_ne C.threads i j _ (fun hh => hji hh.symm) hj]
            exact hshape j (by simpa using hj)

theorem step_threads_length {k : String} {f : St × Option Nat}
    {C C' : Cfg} (h : Step k f C C') :
    C'.threads.length = C.threads.length := by
  cases h <;> simp

/-- The execution invariant holds along every interleaved trace from an
invariant state. -/
theorem trace_CInv {k : String} {f : St × Option Nat} {C0 C : Cfg}
    (h : Relation.ReflTransGen (Step k f) C0 C) (h0 : CInv k f C0) :
    CInv k f C := by
  induction h with
  | refl => exact h0
  | tail _ hbc ih => exact step_preserves_CInv hbc ih

theorem trace_threads_length {k : String} {f : St × Option Nat}
    {C0 C : Cfg} (h : Relation.ReflTransGen (Step k f) C0 C) :
    C.threads.length = C0.threads.length := by
  induction h with
  | refl => rfl
  | tail _ hbc ih => rw [step_threads_length hbc, ih]

/-- The initial configuration (empty cache, all threads at the call
entry) satisfies the execution invariant. -/
theorem CInv_init (k : String) (f : St × Option Nat) (cap : Int)
    (N : Nat) : CInv k f ⟨initCache cap, List.replicate N TSt.start⟩ := by
  constructor
  · intro _
    refine ⟨rfl, rfl, rfl, rfl, ?_⟩
    intro j hj
    simp
  · intro uid0 hk0
    simp [initCache, findA] at hk0

/-- C1: concurrent `CompileIfKeyAbsent(k, f)` calls by `N` threads over
an initially empty cache invoke the compile callback exactly once, and
every call returns the same uid and the callback's status.  In any
interleaved trace in which every thread has returned, all `N` threads
hold uid 0 and status `f.1`, and exactly one thread — the one that ran
the callback — carries the creator flag; a caller that arrives while the
compile is in flight moves to the waiting state and, by the shape of the
step relation, returns only after the creator has finalized the entry,
never invoking the callback itself. -/
theorem compile_once_concurrent (k : String) (f : St × Option Nat)
    (cap : Int) (N : Nat) (C : Cfg) (hN : 0 < N)
    (htr : Relation.ReflTransGen (Step k f)
      ⟨initCache cap, List.replicate N TSt.start⟩ C)
    (hdone : ∀ j (hj : j < C.threads.length),
      (C.threads.get ⟨j, hj⟩).isDone = true) :
    C.threads.length = N ∧
    (∀ j (hj : j < C.threads.length),
      ∃ b, C.threads.get ⟨j, hj⟩ = TSt.done 0 f.1 b) ∧
    ∃ i, ∃ hi : i < C.threads.length,
      C.threads.get ⟨i, hi⟩ = TSt.done 0 f.1 true ∧
      ∀ j (hj : j < C.threads.length), j ≠ i →
        C.threads.get ⟨j, hj⟩ = TSt.done 0 f.1 false := by
  have hinv := trace_CInv htr (CInv_init k f cap N)
  have hlen : C.threads.length = N := by
    rw [trace_threads_length htr]
    simp
  obtain ⟨hnone, hsome⟩ := hinv
  cases hkc : findA C.cache.keyMap k with
  | none =>
    exfalso
    obtain ⟨_, _, _, _, hall⟩ := hnone hkc
    have h0 : 0 < C.threads.length := by rw [hlen]; exact hN
    have hd := hdone 0 h0
    rw [hall 0 h0] at hd
    simp [TSt.isDone] at hd
  | some uidk =>
    obtain ⟨huid0, hkm, hvals, e, hfe, hst,
      ⟨ic, hic, hcr, huniq, hcomp⟩, hshape⟩ := hsome uidk hkc
    have hdshape : ∀ j (hj : j < C.threads.length),
        ∃ b, C.threads.get ⟨j, hj⟩ = TSt.done 0 f.1 b := by
      intro j hj
      rcases hshape j hj with h | h | h | h
      · have hd := hdone j hj
        rw [h] at hd
        simp [TSt.isDone] at hd
      · have hd := hdone j hj
        rw [h] at hd
        simp [TSt.isDone] at hd
      · have hd := hdone j hj
        rw [h] at hd
        simp [TSt.isDone] at hd
      · exact h
    refine ⟨hlen, hdshape, ?_⟩
    obtain ⟨b, hb⟩ := hdshape ic hic
    cases b with
    | false =>
      exfalso
      rw [hb] at hcr
      simp [isCreator] at hcr
    | true =>
      refine ⟨ic, hic, hb, ?_⟩
      intro j hj hji
      obtain ⟨b2, hb2⟩ := hdshape j hj
      cases b2 with
      | false => exact hb2
      | true => exact absurd (huniq j hj (by rw [hb2]; rfl)) hji

/-- The uninitialized entry seen by the second thread while the first is
still compiling. -/
def eWa : Entry :=
  { key := "a", uid := 0, initialized := false, initStatus := St.ok,
    lastUse := -1, program := none, refcount := 1 }

/-- The finalized entry seen by the second thread when it wakes. -/
def eWb : Entry :=
  { key := "a", uid := 0, initialized := true, initStatus := St.ok,
    lastUse := 0, program := some 1, refcount := 3 }

def wCfg0 : Cfg := ⟨initCache 1, List.replicate 2 TSt.start⟩

def wCfg1 : Cfg := ⟨(createEntry wCfg0.cache "a").1,
  wCfg0.threads.set 0 (TSt.compiling (createEntry wCfg0.cache "a").2)⟩

def wCfg2 : Cfg :=
  ⟨bumpRef wCfg1.cache 0, wCfg1.threads.set 1 (TSt.waiting 0)⟩

def wCfg3 : Cfg :=
  ⟨touchEntry (finalizeEntry wCfg2.cache 0 St.ok (some 1)) 0,
  wCfg2.threads.set 0 (TSt.done 0 St.ok true)⟩

def wCfg4 : Cfg := ⟨touchEntry wCfg3.cache 0,
  wCfg3.threads.set 1 (TSt.done 0 eWb.initStatus false)⟩

/-- Concrete run for the theorem above: two threads, capacity 1; thread 0
misses and compiles, thread 1 arrives mid-compile and waits, thread 0
finalizes, thread 1 wakes with the cached status. -/
theorem compile_once_concurrent_witness :
    wCfg4.threads.length = 2 ∧
    (∀ j (hj : j < wCfg4.threads.length),
      ∃ b, wCfg4.threads.get ⟨j, hj⟩ = TSt.done 0 St.ok b) ∧
    ∃ i, ∃ hi : i < wCfg4.threads.length,
      wCfg4.threads.get ⟨i, hi⟩ = TSt.done 0 St.ok true ∧
      ∀ j (hj : j < wCfg4.threads.length), j ≠ i →
        wCfg4.threads.get ⟨j, hj⟩ = TSt.done 0 St.ok false :=
  compile_once_concurrent "a" (St.ok, some 1) 1 2 wCfg4 (by decide)
    (Relation.ReflTransGen.tail
      (Relation.ReflTransGen.tail
        (Relation.ReflTransGen.tail
          (Relation.ReflTransGen.tail Relation.ReflTransGen.refl
            (Step.enterMiss wCfg0 0 (by decide) (by decide) (by decide)))
          (Step.enterHitUninit wCfg1 1 0 eWa (by decide) (by decide)
            (by decide) (by decide) (by decide)))
        (Step.finish wCfg2 0 0 (by decide) (by decide)))
      (Step.wake wCfg3 1 0 eWb (by decide) (by decide) (by decide)
        (by decide)))
    (by decide)

/-- C9: an entry newly created by the miss path of `CompileIfKeyAbsent`
is, right after `InitializeEntry`, present in both identity maps but in
the marked-for-eviction state (absent from the recency index, which is
entirely unchanged, so the new entry is not counted against capacity
while the compile callback runs); it is admitted to the recency index
only by the subsequent `LookupEntryMarkedForEviction`/recency-bump step,
and the miss path of `CompileIfKeyAbsent` is exactly that admission step
applied to the `InitializeEntry` result. -/
theorem new_entry_starts_marked (c : Cache) (key : String)
    (f : St × Option Nat) (hre : Reachable c)
    (hkey : findA c.keyMap key = none) :
    (initializeEntry c key f).2 = c.uidCounter ∧
    findA (initializeEntry c key f).1.store c.uidCounter =
      some (freshEntry c key f) ∧
    findA (initializeEntry c key f).1.keyMap key = some c.uidCounter ∧
    (initializeEntry c key f).1.byLastUse = c.byLastUse ∧
    containsVal (initializeEntry c key f).1.byLastUse c.uidCounter = false ∧
    containsVal
      (touchEntry (initializeEntry c key f).1
        (initializeEntry c key f).2).byLastUse c.uidCounter = true ∧
    compileIfAbsent c key f =
      (touchEntry (initializeEntry c key f).1 (initializeEntry c key f).2,
       (initializeEntry c key f).2, f.1, true) := by
  obtain ⟨h0, hsn⟩ := reachable_inv hre
  obtain ⟨i0, ifind, ikey, iby, iuc, iuid⟩ :=
    initializeEntry_inv0 c key f hkey h0
  have hvals : ∀ p ∈ c.byLastUse, p.2 < c.uidCounter := h0.1.2.2.1
  have hmark : containsVal (initializeEntry c key f).1.byLastUse
      c.uidCounter = false := by
    rw [iby, containsVal_eq_false_iff]
    intro p hp
    have := hvals p hp
    omega
  refine ⟨iuid, ifind, ikey, iby, hmark, ?_, ?_⟩
  · rw [iuid]
    rw [touchEntry_found (initializeEntry c key f).1 c.uidCounter
      (freshEntry c key f) ifind]
    rw [if_neg (by rw [hmark]; exact fun h => by cases h)]
    have hby1 : (touchedState (initializeEntry c key f).1 c.uidCounter
        (freshEntry c key f)).byLastUse =
        ((initializeEntry c key f).1.useCounter, c.uidCounter) ::
          (initializeEntry c key f).1.byLastUse := by
      show ((initializeEntry c key f).1.useCounter, c.uidCounter) ::
        eraseVal (initializeEntry c key f).1.byLastUse c.uidCounter = _
      rw [eraseVal_of_not_contains hmark]
    obtain ⟨t1, t2, t3, t4⟩ := touchedState_groups
      (initializeEntry c key f).1 c.uidCounter (freshEntry c key f) ifind
      i0.1 i0.2.1 i0.2.2.1 i0.2.2.2.1
    obtain ⟨b1, b2, b3, b4⟩ := bumpRef_groups _ c.uidCounter t1 t2 t3 t4
    obtain ⟨fb1, _, _, _, _⟩ := bumpRef_fields
      (touchedState (initializeEntry c key f).1 c.uidCounter
        (freshEntry c key f)) c.uidCounter
    have hby2 : (bumpRef (touchedState (initializeEntry c key f).1
        c.uidCounter (freshEntry c key f)) c.uidCounter).byLastUse =
        ((initializeEntry c key f).1.useCounter, c.uidCounter) ::
          (initializeEntry c key f).1.byLastUse := by
      rw [fb1, hby1]
    have hdom : ∀ q ∈ (initializeEntry c key f).1.byLastUse,
        q.1 < (initializeEntry c key f).1.useCounter := by
      intro q hq
      rw [iby] at hq
      rw [iuc]
      exact (h0.1.1 q hq).2
    have hval : ∀ q ∈ (initializeEntry c key f).1.byLastUse,
        q.2 ≠ c.uidCounter := by
      intro q hq
      rw [iby] at hq
      have := hvals q hq
      omega
    obtain ⟨rest1, hr1, _, _, _⟩ := evictLoopF_head _ _ _ _ _ hby2 hdom hval
      b2 b3
    show containsVal (evictLoopF _ _).byLastUse c.uidCounter = true
    rw [hr1, containsVal_eq_true_iff]
    exact ⟨((initializeEntry c key f).1.useCounter, c.uidCounter),
      List.mem_cons_self _ _, rfl⟩
  · unfold compileIfAbsent
    rw [hkey]

/-- Witness for C9: in a cache of capacity 1 already holding key `"a"`
(uid 0), creating the entry for the absent key `"b"` yields uid 1,
present in both maps, marked, with the recency index unchanged; the
subsequent admission step activates it. -/
theorem new_entry_starts_marked_witness :
    findA (compileIfAbsent (initCache 1) "a" (St.ok, some 1)).1.keyMap "b" =
      none ∧
    (initializeEntry (compileIfAbsent (initCache 1) "a" (St.ok, some 1)).1
      "b" (St.ok, some 2)).2 = 1 ∧
    containsVal
      (initializeEntry (compileIfAbsent (initCache 1) "a" (St.ok, some 1)).1
        "b" (St.ok, some 2)).1.byLastUse 1 = false ∧
    containsVal
      (touchEntry
        (initializeEntry
          (compileIfAbsent (initCache 1) "a" (St.ok, some 1)).1
          "b" (St.ok, some 2)).1
        (initializeEntry
          (compileIfAbsent (initCache 1) "a" (St.ok, some 1)).1
          "b" (St.ok, some 2)).2).byLastUse 1 = true := by
  have huid : (compileIfAbsent (initCache 1) "a"
      (St.ok, some 1)).1.uidCounter = 1 := by decide
  have h := new_entry_starts_marked
    (compileIfAbsent (initCache 1) "a" (St.ok, some 1)).1 "b" (St.ok, some 2)
    (Reachable.compile "a" (St.ok, some 1) (Reachable.init 1)) (by decide)
  exact ⟨by decide, huid ▸ h.1, huid ▸ h.2.2.2.2.1, huid ▸ h.2.2.2.2.2.1⟩

end XRTCache
